import Mathlib

/-!
Shallow embedding of the DDM (DigitalData Manager) reactive data layer
(src/js/ddm.js) in Lean 4.

Modelling conventions
- JavaScript values storable in the DigitalData tree (the Value Model) are the
  inductive JVal: null, booleans, numbers, strings, ordered lists, key-ordered
  maps.  A map is an association list in key insertion order, matching the
  enumeration order of a JS object literal; JS numbers are modelled as exact
  rationals (every finite double is rational, and the operations the source
  uses on numbers - Math.floor, isFinite, equality, stringification - are
  exact on rationals).
- Dot-notated paths, event names and listener patterns are modelled as their
  lists of dot-separated segments (the spec fixes that a literal dot is always
  a separator, so a path string and its segment list are interchangeable).
  The wildcard suffixes are the literal segments "*" and "**".
- JSON.parse(JSON.stringify v) is the identity on the Value Model, so
  cloneObject is the identity function.
- JSON.stringify comparison of two Value-Model values is structural equality,
  modelled by the boolean JVal.beq.
- Handlers are opaque callables with identity: an external handler is a
  natural-number token, a persistence writer closure is tagged with the path
  it captured.  A handler's observable behaviour is an environment function
  beh : Nat -> HArg -> HRes giving, for each call, either a normal return
  (with the "=== true" completion signal) or a thrown exception.  Handlers are
  observers: re-entrant mutation from inside a handler is outside this model.
- localStorage is modelled as an association list from tagged keys (the
  "dd_p_" value key or the "dd_p_exp_" expiry key of a path) to stored
  strings, where a stored string is either the JSON serialization of a value,
  the string of an integer, or the literal string "undefined" (what
  localStorage records when JSON.stringify returns undefined).
-/

/-- The Value Model: storable JS values (ddm.js stores JSON-serializable data
in window._dd).  obj holds its key/value pairs in insertion order. -/
inductive JVal where
  | null : JVal
  | bool : Bool → JVal
  | num : ℚ → JVal
  | str : String → JVal
  | arr : List JVal → JVal
  | obj : List (String × JVal) → JVal

/-- A tree node's children: association list in key insertion order. -/
abbrev KVs := List (String × JVal)

/-- One segment of a dot-notated path. -/
abbrev Seg := String

/-- A dot-notated path, as its list of segments. -/
abbrev DPath := List Seg

mutual

/-- Structural equality of Value-Model values; models comparison of
JSON.stringify serializations (used by the diff engine and by empty). -/
def JVal.beq : JVal → JVal → Bool
  | .null, .null => true
  | .bool a, .bool b => a == b
  | .num a, .num b => a == b
  | .str a, .str b => a == b
  | .arr a, .arr b => JVal.beqList a b
  | .obj a, .obj b => JVal.beqKVs a b
  | _, _ => false

/-- Structural equality of value lists. -/
def JVal.beqList : List JVal → List JVal → Bool
  | [], [] => true
  | x :: xs, y :: ys => JVal.beq x y && JVal.beqList xs ys
  | _, _ => false

/-- Structural equality of key/value lists (key order significant, as it is
for JSON.stringify). -/
def JVal.beqKVs : List (String × JVal) → List (String × JVal) → Bool
  | [], [] => true
  | (k₁, v₁) :: xs, (k₂, v₂) :: ys => k₁ == k₂ && JVal.beq v₁ v₂ && JVal.beqKVs xs ys
  | _, _ => false

end

instance : BEq JVal := ⟨JVal.beq⟩

/-- Models _d.isObject: true exactly for plain objects (maps). -/
def isObjectB : JVal → Bool
  | .obj _ => true
  | _ => false

/-- Models _d.isArray. -/
def isArrayB : JVal → Bool
  | .arr _ => true
  | _ => false

/-- Models _d.isInteger: typeof number, finite, and Math.floor(x) === x.
A rational is finite, and its floor equals it exactly when its denominator
is 1. -/
def isIntegerB : JVal → Bool
  | .num q => q.den == 1
  | _ => false

/-- Models _d.isString. -/
def isStringB : JVal → Bool
  | .str _ => true
  | _ => false

/-- Models _d.cloneObject: JSON round-trip, the identity on the Value Model. -/
def cloneObject (v : JVal) : JVal := v

/-- First binding of a key in an association list (JS property lookup). -/
def lookupKV : KVs → String → Option JVal
  | [], _ => none
  | (k', v') :: rest, k => if k' == k then some v' else lookupKV rest k

/-- JS property assignment: overwrite in place if the key exists, else append
(insertion order). -/
def updateKV : KVs → String → JVal → KVs
  | [], k, v => [(k, v)]
  | (k', v') :: rest, k, v =>
      if k' == k then (k, v) :: rest else (k', v') :: updateKV rest k v

/-- JS delete of a property. -/
def removeKV : KVs → String → KVs
  | [], _ => []
  | (k', v') :: rest, k => if k' == k then rest else (k', v') :: removeKV rest k

/-- One step of JS property access prev[cur] restricted to the Value Model:
defined only when prev is a map holding the key (the tree contains no exotic
index properties). -/
def getProp (o : Option JVal) (k : String) : Option JVal :=
  match o with
  | some (.obj m) => lookupKV m k
  | _ => none

/-- Models getObjectAtPath(path, obj) (ddm.js:1112): the empty path returns
obj itself; otherwise walk the segments by property access, with undefined
propagating.  NOTE the source's default-argument line
"obj = typeof obj !== undefined ? obj : window._dd" compares the string
"undefined" against the value undefined, which is always true, so a
one-argument call keeps obj = undefined: such call sites pass none here and
always produce none. -/
def getObjectAtPath : DPath → Option JVal → Option JVal
  | [], o => o
  | k :: ks, o => getObjectAtPath ks (getProp o k)

mutual

/-- Models mergeObjects(destination, source) (ddm.js:1448): for each source
property in order, recursively merge map values (reusing or creating the
destination map) and overwrite everything else. -/
def mergeObjects : KVs → KVs → KVs
  | dst, [] => dst
  | dst, (k, v) :: rest => mergeObjects (mergeOne dst k v) rest

/-- One property of the merge loop body. -/
def mergeOne (dst : KVs) (k : String) : JVal → KVs
  | .obj src' =>
      let d0 : KVs :=
        match lookupKV dst k with
        | some (.obj m) => m
        | _ => []
      updateKV dst k (.obj (mergeObjects d0 src'))
  | v => updateKV dst k (cloneObject v)

end

/-- Models setObjectAtPath's reduce walk (ddm.js:1081) on the children of a
map node: at the terminal segment merge map-into-map, otherwise overwrite;
at an intermediate segment descend into an existing map or replace whatever
is there by a fresh empty map. -/
def setWalk : DPath → JVal → KVs → KVs
  | [], _, kvs => kvs
  | [k], v, kvs =>
      match lookupKV kvs k with
      | some (.obj m) =>
          match v with
          | .obj src => updateKV kvs k (.obj (mergeObjects m src))
          | _ => updateKV kvs k v
      | _ => updateKV kvs k v
  | k :: ks@(_ :: _), v, kvs =>
      match lookupKV kvs k with
      | some (.obj m) => updateKV kvs k (.obj (setWalk ks v m))
      | _ => updateKV kvs k (.obj (setWalk ks v []))

/-- Models setObjectAtPath(path, value): clone the value, then walk/merge. -/
def setObjectAtPath (p : DPath) (v : JVal) (t : KVs) : KVs :=
  setWalk p (cloneObject v) t

/-- Models the delete performed by _d.erase: delete the terminal key from its
parent map (a no-op if the walk does not reach a map). -/
def deleteAtPath : DPath → KVs → KVs
  | [], kvs => kvs
  | [k], kvs => removeKV kvs k
  | k :: ks, kvs =>
      match lookupKV kvs k with
      | some (.obj m) => updateKV kvs k (.obj (deleteAtPath ks m))
      | _ => kvs

/-- JS String.prototype.trim / the \s character class as used by the trim
polyfill (ddm.js:1592): ASCII whitespace plus NBSP and the BOM. -/
def isWsChar (c : Char) : Bool :=
  c == ' ' || c == '\t' || c == '\n' || c == '\r' ||
  c == '\x0b' || c == '\x0c' || c == ' ' || c == '﻿'

/-- JS trim: drop leading and trailing whitespace. -/
def jsTrim (s : String) : String :=
  ⟨((s.data.dropWhile isWsChar).reverse.dropWhile isWsChar).reverse⟩

/-- Models _d.empty (ddm.js:245): undefined/null, stringify-empty map, empty
list, trim-empty string are empty; anything else is empty exactly when it is
not an integer. -/
def empty (t : KVs) (p : DPath) : Bool :=
  match getObjectAtPath p (some (.obj t)) with
  | none => true
  | some v =>
      match v with
      | .null => true
      | .obj m => m.isEmpty
      | .arr xs => xs.isEmpty
      | .str s => jsTrim s == ""
      | v => !isIntegerB v

/-- Boolean structural equality lifted to Option, modelling the comparison of
JSON.stringify results where stringify(undefined) is the value undefined:
undefined compares equal only to undefined. -/
def optBeq : Option JVal → Option JVal → Bool
  | none, none => true
  | some a, some b => JVal.beq a b
  | _, _ => false

/-- Models the private recursive walk _getDifferences(obj1, obj2, _, path)
(ddm.js:1533), iterating the properties of obj2 at one map node.
For a map-valued property: record its path when it is entirely absent on the
obj1 side, then recurse with the corresponding obj1 property (undefined when
obj1 is not a map holding the key).  For any other property: record its path
unless the corresponding obj1 property has an identical serialization. -/
def diffKVs : Option JVal → KVs → DPath → List DPath
  | _, [], _ => []
  | o1, (k, JVal.obj m2) :: rest, path =>
      (if (getProp o1 k).isNone then [path ++ [k]] else [])
        ++ diffKVs (getProp o1 k) m2 (path ++ [k])
        ++ diffKVs o1 rest path
  | o1, (k, v) :: rest, path =>
      (if optBeq (getProp o1 k) (some v) then [] else [path ++ [k]])
        ++ diffKVs o1 rest path

/-- The deduplication loop of getDifferences (ddm.js:1498): scan the
concatenated differences from the end, keeping each path once. -/
def dedupeDiffs (all : List DPath) : List DPath :=
  all.reverse.foldl (fun res x => if x ∈ res then res else res ++ [x]) []

/-- Models getDifferences(obj1, obj2) (ddm.js:1482): run the one-directional
walk in both argument orders, concatenate, deduplicate. -/
def getDifferences (t₁ t₂ : KVs) : List DPath :=
  dedupeDiffs (diffKVs (some (.obj t₁)) t₂ [] ++ diffKVs (some (.obj t₂)) t₁ [])

mutual

/-- Well-formedness of a tree value: every map node on the map spine has
pairwise-distinct keys (automatic for a real JS object, whose properties are
unique). -/
def wfVal : JVal → Bool
  | .obj m => wfKVs m
  | _ => true

/-- Well-formedness of a map node's children: the head key does not recur and
every child is well-formed. -/
def wfKVs : KVs → Bool
  | [] => true
  | (k, v) :: rest => !(rest.any (fun e => e.1 == k)) && wfVal v && wfKVs rest

end

/-- The single-level wildcard segment. -/
def wild1 : Seg := "*"

/-- The multi-level wildcard segment. -/
def wild2 : Seg := "**"

/-- Handler identity (JS function identity, the deduplication key of the
spec's ListenerRecord): either an externally supplied handler function,
identified by an opaque token, or a persistence writer closure created by
persist(path), identified by the path it captured (persist creates at most
one such closure per path, so this equality is function identity). -/
inductive HandlerFn where
  | ext : Nat → HandlerFn
  | persistCl : DPath → HandlerFn
deriving DecidableEq

/-- A listener record, the object pushed by registerListener (ddm.js:1253):
handler, debug id, dependsOn, plus the fire-once mark set by dispatch
(hasOwnProperty("once"); present means the mark was set, it is only ever set
to true).  rid is the JS object identity of the record, assigned freshly at
registration. -/
structure LRec where
  rid : Nat
  fn : HandlerFn
  debugId : Option String
  dependsOn : Option (List DPath)
  once : Bool
deriving DecidableEq

/-- A listener registry: pattern string to ordered list of records.  Three
independent registries exist (change, event, persistence). -/
abbrev Registry := List (DPath × List LRec)

/-- hasOwnProperty / property read on a registry object. -/
def lookupReg : Registry → DPath → Option (List LRec)
  | [], _ => none
  | (p, l) :: rest, q => if p == q then some l else lookupReg rest q

/-- Property assignment on a registry object: overwrite in place or append. -/
def setRegKey : Registry → DPath → List LRec → Registry
  | [], q, l => [(q, l)]
  | (p, l') :: rest, q, l =>
      if p == q then (q, l) :: rest else (p, l') :: setRegKey rest q l

/-- Property delete on a registry object (used by unpersist). -/
def delRegKey : Registry → DPath → Registry
  | [], _ => []
  | (p, l') :: rest, q => if p == q then rest else (p, l') :: delRegKey rest q

/-- The strict-equality test l[i] === handler at ddm.js:1250.  l[i] is the
freshly allocated listener-record object while handler is the caller's
function value, so the two are never the same reference: the test is always
false (the intended test was l[i].handler === handler, as unlisten uses).
As a consequence registerListener never detects a duplicate. -/
def recordStrictEqHandler (_ : LRec) (_ : HandlerFn) : Bool := false

/-- Models registerListener(path, handler, listeners, dependsOn, id)
(ddm.js:1238) on a given registry, with rid the fresh record identity.
Returns the new registry and the was-registered flag. -/
def registerListener (reg : Registry) (pat : DPath) (fn : HandlerFn)
    (dep : Option (List DPath)) (debugId : Option String) (rid : Nat) :
    Registry × Bool :=
  let l := (lookupReg reg pat).getD []
  if l.any (fun r => recordStrictEqHandler r fn) then (reg, false)
  else (setRegKey reg pat (l ++ [⟨rid, fn, debugId, dep, false⟩]), true)

/-- ddm.js:1277/1287/1293: wrap one registered pattern as a path+handlers
entry, or nothing when the pattern has no registry key. -/
def glEntry (reg : Registry) (pat : DPath) : List (DPath × List LRec) :=
  match lookupReg reg pat with
  | some hs => [(pat, hs)]
  | none => []

/-- The reduce loop of getListeners (ddm.js:1280): at the last segment add
the sibling wildcard prev.* and the exact path; at every earlier segment add
the descendant wildcard prev.cur.** . -/
def glLoop (reg : Registry) (prev : DPath) : List Seg → List (DPath × List LRec)
  | [] => []
  | [cur] => glEntry reg (prev ++ [wild1]) ++ glEntry reg (prev ++ [cur])
  | cur :: rest => glEntry reg (prev ++ [cur, wild2]) ++ glLoop reg (prev ++ [cur]) rest

/-- Models getListeners(path, listenersToInspect) (ddm.js:1274): the bare **
entry, then the reduce loop, reversed so the deepest pattern comes first. -/
def getListeners (path : DPath) (reg : Registry) : List (DPath × List LRec) :=
  (glEntry reg [wild2] ++ glLoop reg [] path).reverse

/-- The regex replace invokePath.replace(/\.?\*\*?$/, "") (ddm.js:1196 and
326): strip a trailing wildcard segment from a pattern to obtain the path
whose current value is handed to the handler. -/
def stripWildcard (pat : DPath) : DPath :=
  match pat.getLast? with
  | some s => if s == wild1 || s == wild2 then pat.dropLast else pat
  | none => pat

/-- An event (ddm.js trigger, lines 362-374): the payload object with name
and timestamp set into it; dd is the embedded tree patch when the payload
carried an object-valued dd property, rest stands for the remaining payload
fields (opaque to the engine). -/
structure Ev where
  name : DPath
  timestamp : Int
  dd : Option KVs
  rest : KVs

/-- A trigger payload: optional embedded tree patch plus other fields. -/
structure TrigPayload where
  dd : Option KVs
  rest : KVs

/-- Result of calling a handler: a normal return (with the result of the
"=== true" completion-signal comparison) or a thrown exception. -/
inductive HRes where
  | ret : Bool → HRes
  | thrown : HRes
deriving DecidableEq

/-- The argument a handler receives: the current data at a change-listener's
path (possibly undefined), or the event object. -/
inductive HArg where
  | data : Option JVal → HArg
  | event : Ev → HArg

/-- Behaviour environment for external handlers: what each call returns. -/
abbrev Beh := Nat → HArg → HRes

/-- Whether a handler call completed with === true, as tested inside the
try/catch at each dispatch call site (ddm.js:416, 427, 622, 634, 1196): a
thrown exception is caught there and counts as a normal non-true return. -/
def handlerFired (beh : Beh) (n : Nat) (arg : HArg) : Bool :=
  match beh n arg with
  | .ret b => b
  | .thrown => false

/-- An invocation of a listener's handler, as observed during dispatch. -/
structure InvRec where
  rid : Nat
  fn : HandlerFn
  arg : HArg

/-- A key in the external store: the value key dd_p_<path> or the expiry key
dd_p_exp_<path>. -/
inductive SKey where
  | val : DPath → SKey
  | exp : DPath → SKey
deriving DecidableEq

/-- A stored string: the JSON serialization of a value, the decimal string of
an integer (expiry timestamps), or the literal string "undefined" written
when JSON.stringify returned undefined. -/
inductive SVal where
  | js : JVal → SVal
  | int : Int → SVal
  | undef : SVal

instance : BEq SVal where
  beq a b :=
    match a, b with
    | .js v, .js w => JVal.beq v w
    | .int n, .int m => n == m
    | .undef, .undef => true
    | _, _ => false

/-- The external key-value store (localStorage), modelled as available. -/
abbrev Store := List (SKey × SVal)

/-- Store read. -/
def storeGet : Store → SKey → Option SVal
  | [], _ => none
  | (k', v') :: rest, k => if k' == k then some v' else storeGet rest k

/-- storage.setItem. -/
def storeSet : Store → SKey → SVal → Store
  | [], k, v => [(k, v)]
  | (k', v') :: rest, k, v =>
      if k' == k then (k, v) :: rest else (k', v') :: storeSet rest k v

/-- storage.removeItem. -/
def storeDel : Store → SKey → Store
  | [], _ => []
  | (k', v') :: rest, k => if k' == k then rest else (k', v') :: storeDel rest k

/-- The persisted-path table _pathsToPersist: path to TTL minutes. -/
abbrev PPTable := List (DPath × Int)

/-- Table lookup. -/
def ppGet : PPTable → DPath → Option Int
  | [], _ => none
  | (p', n') :: rest, p => if p' == p then some n' else ppGet rest p

/-- Table assignment. -/
def ppSet : PPTable → DPath → Int → PPTable
  | [], p, n => [(p, n)]
  | (p', n') :: rest, p, n =>
      if p' == p then (p, n) :: rest else (p', n') :: ppSet rest p n

/-- The full engine state: the tree, the previous-tree snapshot, the event
log, the three listener registries, the persisted-path table, the external
store, the clock (Date.now(), milliseconds), and the fresh record-identity
counter. -/
structure DDM where
  dd : KVs
  prevDD : KVs
  events : List Ev
  eventL : Registry
  propL : Registry
  persL : Registry
  toPersist : PPTable
  store : Store
  now : Int
  nextRid : Nat

/-- Which of the three registries a dispatch works on. -/
inductive RegTag where
  | evt | prop | pers
deriving DecidableEq

/-- Select a registry. -/
def getReg (s : DDM) : RegTag → Registry
  | .evt => s.eventL
  | .prop => s.propL
  | .pers => s.persL

/-- Replace a registry. -/
def setReg (s : DDM) : RegTag → Registry → DDM
  | .evt, r => {s with eventL := r}
  | .prop, r => {s with propL := r}
  | .pers, r => {s with persL := r}

/-- Models _d.isTriggered(name) (ddm.js:506): the event log contains an event
of that name. -/
def isTriggered (events : List Ev) (name : DPath) : Bool :=
  events.any (fun e => e.name == name)

/-- Models the private _persist(key, value, ttl) (ddm.js:1340), with storage
available: when now is before the computed expiry, store the serialized value
and the expiry; otherwise remove both keys.  value = none is a JS undefined
(JSON.stringify then yields undefined and localStorage records the string
"undefined"). -/
def persistRaw (s : DDM) (key : DPath) (value : Option JVal) (ttl : Option Int) : DDM :=
  let t := ttl.getD 30
  let expv := s.now + t * 60000
  if s.now < expv then
    {s with store := storeSet (storeSet s.store (.val key)
      (match value with | some v => .js v | none => .undef)) (.exp key) (.int expv)}
  else
    {s with store := storeDel (storeDel s.store (.val key)) (.exp key)}

/-- Call one handler from a dispatch call site, inside its try/catch: an
external handler consults the behaviour environment (a thrown exception is
caught and counts as a non-true return); a persistence writer closure runs
_persist(path, data, _pathsToPersist[path]) and returns undefined.  Returns
the possibly-updated state and the completion signal. -/
def runHandler (beh : Beh) (s : DDM) (fn : HandlerFn) (arg : HArg) : DDM × Bool :=
  match fn with
  | .ext n => (s, handlerFired beh n arg)
  | .persistCl p =>
      let d : Option JVal := match arg with | .data d => d | .event _ => none
      (persistRaw s p d (ppGet s.toPersist p), false)

/-- The guarded invocation block shared by every dispatch call site
(ddm.js:416, 427, 622, 634, 1196): a record marked fire-once is not called;
otherwise the handler is called inside try/catch and a === true return sets
the fire-once mark.  Returns the updated state, the updated record and the
observed invocation. -/
def invokeGuarded (beh : Beh) (s : DDM) (r : LRec) (arg : HArg) :
    DDM × LRec × List InvRec :=
  if r.once then (s, r, [])
  else
    let (s', fired) := runHandler beh s r.fn arg
    (s', {r with once := fired}, [⟨r.rid, r.fn, arg⟩])

/-- The handler loop of invokeChangeListenersForListenerSet (ddm.js:1192):
invoke each record of one matched pattern with the current value at the
pattern's base path, skipping records already marked fire-once; a record
whose handler returns true is marked fire-once; every record's handler is
pushed onto the invoked-functions list (even when skipped or throwing).
Returns the updated state, the updated records, the observed invocations and
the invoked-functions list. -/
def invokeRecsList (beh : Beh) (pat : DPath) :
    DDM → List LRec → DDM × List LRec × List InvRec × List HandlerFn
  | s, [] => (s, [], [], [])
  | s, r :: rs =>
      let d := getObjectAtPath (stripWildcard pat) (some (.obj s.dd))
      let (s₁, r₁, inv₁) := invokeGuarded beh s r (.data d)
      let (s₂, rs₂, invs, fns) := invokeRecsList beh pat s₁ rs
      (s₂, r₁ :: rs₂, inv₁ ++ invs, r.fn :: fns)

/-- The listener loop of invokeChangeListenersForListenerSet (ddm.js:1184):
for each matched pattern not yet invoked in this round, invoke its records
and mark the pattern invoked. -/
def invokePatternList (beh : Beh) (tag : RegTag) :
    DDM → List DPath → List (DPath × List LRec) →
    DDM × List DPath × List InvRec × List HandlerFn
  | s, visited, [] => (s, visited, [], [])
  | s, visited, (pat, recs) :: ls =>
      if pat ∈ visited then invokePatternList beh tag s visited ls
      else
        let (s₁, recs₁, invs₁, fns₁) := invokeRecsList beh pat s recs
        let s₂ := setReg s₁ tag (setRegKey (getReg s₁ tag) pat recs₁)
        let (s₃, vis₃, invs₃, fns₃) :=
          invokePatternList beh tag s₂ (visited ++ [pat]) ls
        (s₃, vis₃, invs₁ ++ invs₃, fns₁ ++ fns₃)

/-- The difference loop of invokeChangeListenersForListenerSet (ddm.js:1178):
for each changed path, resolve its listeners against the current registry and
invoke them, sharing the invoked-pattern set across the whole round. -/
def invokeDiffList (beh : Beh) (tag : RegTag) :
    DDM → List DPath → List DPath → DDM × List DPath × List InvRec × List HandlerFn
  | s, visited, [] => (s, visited, [], [])
  | s, visited, d :: ds =>
      let ls := getListeners d (getReg s tag)
      let (s₁, vis₁, invs₁, fns₁) := invokePatternList beh tag s visited ls
      let (s₂, vis₂, invs₂, fns₂) := invokeDiffList beh tag s₁ vis₁ ds
      (s₂, vis₂, invs₁ ++ invs₂, fns₁ ++ fns₂)

/-- Models invokeChangeListenersForListenerSet(listenerSet) (ddm.js:1160):
diff the previous tree against the current one, reverse so the deepest paths
come first, then run the difference loop. -/
def invokeChangeListenersForListenerSet (beh : Beh) (tag : RegTag) (s : DDM) :
    DDM × List InvRec × List HandlerFn :=
  let diffs := (getDifferences s.prevDD s.dd).reverse
  let (s₁, _, invs, fns) := invokeDiffList beh tag s [] diffs
  (s₁, invs, fns)

/-- Models invokeChangeListeners (ddm.js:1138): persistence listeners first,
then property (change) listeners; the invoked-functions lists concatenate. -/
def invokeChangeListeners (beh : Beh) (s : DDM) : DDM × List InvRec × List HandlerFn :=
  let (s₁, invs₁, fns₁) := invokeChangeListenersForListenerSet beh .pers s
  let (s₂, invs₂, fns₂) := invokeChangeListenersForListenerSet beh .prop s₁
  (s₂, invs₁ ++ invs₂, fns₁ ++ fns₂)

/-- The per-record body of the trigger dispatch loop (ddm.js:399-434): a
dependsOn record fires only when every name it depends on equals the current
event's name or occurs in the event log, and its handler was not invoked by
this trigger's change dispatch; a plain record fires under the already-
invoked guard alone.  Firing is subject to the fire-once guard: a record
marked once is not called, and a call returning true sets the mark. -/
def triggerRecs (beh : Beh) (name : DPath) (ev : Ev) (invoked0 : List HandlerFn) :
    DDM → List LRec → DDM × List LRec × List InvRec
  | s, [] => (s, [], [])
  | s, r :: rs =>
      let gate :=
        match r.dependsOn with
        | some deps =>
            deps.all (fun dep => dep == name || isTriggered s.events dep) &&
              !(invoked0.contains r.fn)
        | none => !(invoked0.contains r.fn)
      let (s₁, r₁, inv₁) :=
        if gate then invokeGuarded beh s r (.event ev) else (s, r, [])
      let (s₂, rs₂, invs) := triggerRecs beh name ev invoked0 s₁ rs
      (s₂, r₁ :: rs₂, inv₁ ++ invs)

/-- The pattern loop of the trigger dispatch (ddm.js:395): every matched
pattern's records are processed (no per-pattern deduplication here). -/
def triggerPatterns (beh : Beh) (name : DPath) (ev : Ev) (invoked0 : List HandlerFn) :
    DDM → List (DPath × List LRec) → DDM × List InvRec
  | s, [] => (s, [])
  | s, (pat, recs) :: ls =>
      let (s₁, recs₁, invs₁) := triggerRecs beh name ev invoked0 s recs
      let s₂ := setReg s₁ .evt (setRegKey (getReg s₁ .evt) pat recs₁)
      let (s₃, invs₃) := triggerPatterns beh name ev invoked0 s₂ ls
      (s₃, invs₁ ++ invs₃)

/-- Models _d.trigger(eventName, payload) (ddm.js:362): build the event; if
the payload embeds a dd patch, merge it into the tree and run a change
dispatch, remembering the invoked handlers; resolve the event listeners for
the name and fire them under the dependsOn / already-invoked / fire-once
rules; finally append the event to the log (after dispatch, so the event is
invisible to its own dependency checks). -/
def triggerOp (beh : Beh) (s : DDM) (name : DPath) (payload : Option TrigPayload) :
    DDM × List InvRec :=
  let patch := payload.bind (·.dd)
  let ev : Ev := { name := name, timestamp := s.now, dd := patch,
                   rest := (payload.map (·.rest)).getD [] }
  let (s₁, invoked0, invsA) :=
    match patch with
    | some dd' =>
        let sA := {s with prevDD := s.dd}
        let sB := {sA with dd := mergeObjects sA.dd dd'}
        let (sC, invs, fns) := invokeChangeListeners beh sB
        (sC, fns, invs)
    | none => (s, [], [])
  let ls := getListeners name s₁.eventL
  let (s₂, invsB) := triggerPatterns beh name ev invoked0 s₁ ls
  ({s₂ with events := s₂.events ++ [ev]}, invsA ++ invsB)

/-- The name argument of _d.listen: a single event name or an array of names
(the array form registers every name with the whole array as dependsOn). -/
inductive EvName where
  | one : DPath → EvName
  | many : List DPath → EvName

/-- The registration loop of _d.listen (ddm.js:575-583): the array form walks
the names in reverse index order, registering each with dependsOn = the
array; the single form registers one record with no dependsOn. -/
def listenRegister (s : DDM) (names : EvName) (h : Nat) (debugId : Option String) : DDM :=
  match names with
  | .one p =>
      let (reg', _) := registerListener s.eventL p (.ext h) none debugId s.nextRid
      {s with eventL := reg', nextRid := s.nextRid + 1}
  | .many ps =>
      ps.reverse.foldl
        (fun s' p =>
          let (reg', _) :=
            registerListener s'.eventL p (.ext h) (some ps) debugId s'.nextRid
          {s' with eventL := reg', nextRid := s'.nextRid + 1})
        s

/-- The record loop of the historical replay (ddm.js:602): records are walked
in reverse index order; a record fires when its handler is the handler just
registered and (for a dependsOn record) every dependency is in the seen-so-
far set, under the fire-once guard. -/
def replayRecs (beh : Beh) (h : Nat) (seen : List DPath) (e : Ev) :
    DDM → List LRec → DDM × List LRec × List InvRec
  | s, [] => (s, [], [])
  | s, r :: rs =>
      let (s₁, rs₁, invs₁) := replayRecs beh h seen e s rs
      let gate :=
        match r.dependsOn with
        | some deps => deps.all (fun dep => dep ∈ seen) && (HandlerFn.ext h == r.fn)
        | none => HandlerFn.ext h == r.fn
      if gate then
        let (s₂, r₂, inv₂) := invokeGuarded beh s₁ r (.event e)
        (s₂, r₂ :: rs₁, invs₁ ++ inv₂)
      else (s₁, r :: rs₁, invs₁)

/-- The listener loop of the historical replay (ddm.js:599), also in reverse
index order. -/
def replayPatterns (beh : Beh) (h : Nat) (seen : List DPath) (e : Ev) :
    DDM → List (DPath × List LRec) → DDM × List InvRec
  | s, [] => (s, [])
  | s, (pat, recs) :: ls =>
      let (s₁, invs₁) := replayPatterns beh h seen e s ls
      let (s₂, recs₂, invs₂) := replayRecs beh h seen e s₁ recs
      let s₃ := setReg s₂ .evt (setRegKey (getReg s₂ .evt) pat recs₂)
      (s₃, invs₁ ++ invs₂)

/-- The event loop of the historical replay (ddm.js:591): walk the log in
original order, growing the seen-so-far set (including the current event
before dispatching it), resolving listeners afresh for each event. -/
def replayEvents (beh : Beh) (h : Nat) :
    DDM → List DPath → List Ev → DDM × List InvRec
  | s, _, [] => (s, [])
  | s, seen, e :: es =>
      let seen' := if e.name ∈ seen then seen else seen ++ [e.name]
      let ls := getListeners e.name s.eventL
      let (s₁, invs₁) := replayPatterns beh h seen' e s ls
      let (s₂, invs₂) := replayEvents beh h s₁ seen' es
      (s₂, invs₁ ++ invs₂)

/-- Models _d.listen(name, invokeHandlerOnHistoricalEvents, handler, id)
(ddm.js:559): register the listener(s), then, unless historical replay was
explicitly disabled, replay the whole event log with the incrementally grown
seen-set gating dependsOn. -/
def listenOp (beh : Beh) (s : DDM) (names : EvName) (hist : Bool) (h : Nat)
    (debugId : Option String) : DDM × List InvRec :=
  let s₁ := listenRegister s names h debugId
  if hist then replayEvents beh h s₁ [] s₁.events else (s₁, [])

/-- Models _d.change(path, onlyInvokeOnChanges, handler, id) (ddm.js:306):
register the handler as a property listener; when registration reports a new
record (the broken duplicate test makes this always so) and change-only
semantics was not requested, call the handler directly with the existing
value at the path (wildcard suffix stripped) if one exists.  The direct call
ignores the handler's result (no fire-once mark), and an exception it throws
is caught by the surrounding try with nothing left to run after it, so only
the invocation itself is observable. -/
def changeOp (s : DDM) (path : DPath) (onlyCh : Bool) (h : Nat)
    (debugId : Option String) : DDM × List InvRec :=
  let rid := s.nextRid
  let (reg', registered) := registerListener s.propL path (.ext h) none debugId rid
  let s₁ := {s with propL := reg', nextRid := s.nextRid + 1}
  if registered && !onlyCh then
    match getObjectAtPath (stripWildcard path) (some (.obj s₁.dd)) with
    | some v => (s₁, [⟨rid, .ext h, .data (some v)⟩])
    | none => (s₁, [])
  else (s₁, [])

/-- Models _d.unlisten(name, handler) (ddm.js:674): splice out of the exact
pattern's list every record whose handler field is the given function (this
comparison, unlike registration's, reaches the handler field). -/
def unlistenOp (s : DDM) (name : DPath) (h : Nat) : DDM :=
  match lookupReg s.eventL name with
  | none => s
  | some l =>
      let l' := l.filter (fun r => !(r.fn == HandlerFn.ext h))
      {s with eventL := setRegKey s.eventL name l'}

/-- Models _d.persist(path, ttl) (ddm.js:705): default the TTL to 30; if the
path is not yet tracked, register the writer closure for the exact path and
for path.** in the persistence registry; record the TTL; finally the source
means to write the current value immediately, but its existence test calls
getObjectAtPath with one argument, which always yields undefined (see
getObjectAtPath), so the immediate write never executes. -/
def persistOp (s : DDM) (p : DPath) (ttl : Option Int) : DDM :=
  let t := ttl.getD 30
  let s₁ :=
    if (ppGet s.toPersist p).isSome then s
    else
      let (regA, _) := registerListener s.persL p (.persistCl p) none none s.nextRid
      let (regB, _) :=
        registerListener regA (p ++ [wild2]) (.persistCl p) none none (s.nextRid + 1)
      {s with persL := regB, nextRid := s.nextRid + 2}
  let s₂ := {s₁ with toPersist := ppSet s₁.toPersist p t}
  if (getObjectAtPath p none).isSome then
    persistRaw s₂ p (getObjectAtPath p none) (some t)
  else s₂

/-- Models _d.unpersist(path) (ddm.js:749): delete both persistence-listener
registrations, then _persist(path, null, 0), which removes both store keys. -/
def unpersistOp (s : DDM) (p : DPath) : DDM :=
  let s₁ := {s with persL := delRegKey (delRegKey s.persL p) (p ++ [wild2])}
  persistRaw s₁ p (some .null) (some 0)

/-- Models _d.set(path, value, persist, ttl) (ddm.js:88): snapshot the tree,
optionally register persistence first, write at the path, dispatch. -/
def setOp (beh : Beh) (s : DDM) (p : DPath) (v : JVal) (per : Bool)
    (ttl : Option Int) : DDM × List InvRec :=
  let s₁ := {s with prevDD := s.dd}
  let s₂ := if per then persistOp s₁ p ttl else s₁
  let s₃ := {s₂ with dd := setObjectAtPath p v s₂.dd}
  let (s₄, invs, _) := invokeChangeListeners beh s₃
  (s₄, invs)

/-- Models _d.erase(path) (ddm.js:128): nothing happens when the path has no
value; otherwise snapshot, delete the terminal key from its parent map,
dispatch. -/
def eraseOp (beh : Beh) (s : DDM) (p : DPath) : DDM × List InvRec :=
  if (getObjectAtPath p (some (.obj s.dd))).isNone then (s, [])
  else
    let s₁ := {s with prevDD := s.dd, dd := deleteAtPath p s.dd}
    let (s₂, invs, _) := invokeChangeListeners beh s₁
    (s₂, invs)

/-- Models _d.push(path, value) (ddm.js:177): snapshot, read the current
value, append to it if it is a list (concatenating a list value), otherwise
start a fresh one-element list, dispatch.  Returns the pre-push value. -/
def pushOp (beh : Beh) (s : DDM) (p : DPath) (v : JVal) :
    DDM × List InvRec × Option JVal :=
  let s₁ := {s with prevDD := s.dd}
  let a := getObjectAtPath p (some (.obj s₁.dd))
  let newv : JVal :=
    match a with
    | some (.arr xs) =>
        .arr (xs ++ (match v with | .arr ys => ys | w => [cloneObject w]))
    | _ => .arr [cloneObject v]
  let s₂ := {s₁ with dd := setObjectAtPath p newv s₁.dd}
  let (s₃, invs, _) := invokeChangeListeners beh s₂
  (s₃, invs, a)

/-- parseInt(storedString, 10): an integer parses to itself; a JSON payload
or the string "undefined" parses to NaN, and every NaN comparison is false
(modelled as none, with the comparison defaulting to false). -/
def parseIntS : SVal → Option Int
  | .int n => some n
  | _ => none

/-- JSON.parse of a stored string: a serialized value parses back to itself,
an integer string parses to that number, and the string "undefined" throws
(modelled as none; the surrounding try then abandons the whole restore). -/
def parseJson : SVal → Option JVal
  | .js v => some v
  | .int n => some (.num n)
  | .undef => none

/-- Remove an expiry key and its paired value key (ddm.js:1424). -/
def removeStorePair (s : DDM) (p : DPath) : DDM :=
  {s with store := storeDel (storeDel s.store (.exp p)) (.val p)}

/-- One iteration body of the restore loop (ddm.js:1406-1427) for an expiry
key: when the paired value key exists and the expiry is still in the future,
write the parsed value straight into the tree (no dispatch) and re-persist
the path unless it is already tracked; otherwise remove both keys.  Yields
none when JSON.parse throws. -/
def restoreStep (s : DDM) : SKey → Option DDM
  | .exp p =>
      match storeGet s.store (.val p), storeGet s.store (.exp p) with
      | some sv, some expv =>
          if (parseIntS expv).elim false (fun n => s.now < n) then
            match parseJson sv with
            | none => none
            | some v =>
                let s₁ := {s with dd := setObjectAtPath p v s.dd}
                some (if (ppGet s₁.toPersist p).isSome then s₁ else persistOp s₁ p none)
          else some (removeStorePair s p)
      | _, _ => some (removeStorePair s p)
  | .val _ => some s

/-- The defensive cleanup at ddm.js:1430: any dd_p_-prefixed key whose stored
string is the literal "undefined" is removed. -/
def restoreCleanup (s : DDM) (key : SKey) : DDM :=
  if (storeGet s.store key).elim false (fun v => v == SVal.undef) then
    {s with store := storeDel s.store key}
  else s

/-- The for-in loop of restorePersistedDD over the storage keys: keys removed
by an earlier iteration are skipped; a JSON.parse exception silently abandons
the remaining iterations (the whole loop sits in one try/catch). -/
def restoreLoop : DDM → List SKey → DDM
  | s, [] => s
  | s, key :: rest =>
      if (storeGet s.store key).isNone then restoreLoop s rest
      else
        match restoreStep s key with
        | none => s
        | some s₁ => restoreLoop (restoreCleanup s₁ key) rest

/-- Models restorePersistedDD (ddm.js:1394), run at startup with storage
available: scan the storage keys. -/
def restoreOp (s : DDM) : DDM :=
  restoreLoop s (s.store.map Prod.fst)

/-- One public engine operation (the mutating/dispatching part of the API;
get/has/empty/isTriggered are pure reads and appear as plain functions). -/
inductive Op where
  | setV : DPath → JVal → Bool → Option Int → Op
  | eraseV : DPath → Op
  | pushV : DPath → JVal → Op
  | trig : DPath → Option TrigPayload → Op
  | listenE : EvName → Bool → Nat → Option String → Op
  | changeP : DPath → Bool → Nat → Option String → Op
  | unlistenE : DPath → Nat → Op
  | persistP : DPath → Option Int → Op
  | unpersistP : DPath → Op
  | restore : Op

/-- Run one public operation, returning the new state and the handler
invocations it performed. -/
def step (beh : Beh) (s : DDM) : Op → DDM × List InvRec
  | .setV p v per ttl => setOp beh s p v per ttl
  | .eraseV p => eraseOp beh s p
  | .pushV p v =>
      let (s', invs, _) := pushOp beh s p v
      (s', invs)
  | .trig n pl => triggerOp beh s n pl
  | .listenE nm hist h dbg => listenOp beh s nm hist h dbg
  | .changeP p oc h dbg => changeOp s p oc h dbg
  | .unlistenE n h => (unlistenOp s n h, [])
  | .persistP p ttl => (persistOp s p ttl, [])
  | .unpersistP p => (unpersistOp s p, [])
  | .restore => (restoreOp s, [])

/-- Run a sequence of public operations, concatenating the invocations. -/
def trace (beh : Beh) : DDM → List Op → DDM × List InvRec
  | s, [] => (s, [])
  | s, op :: ops =>
      let (s₁, invs₁) := step beh s op
      let (s₂, invs₂) := trace beh s₁ ops
      (s₂, invs₁ ++ invs₂)

/-- The engine state at startup: empty tree, snapshot, log, registries and
table; the store and clock are the environment's. -/
def initDDM (store : Store) (now : Int) : DDM :=
  { dd := [], prevDD := [], events := [], eventL := [], propL := [], persL := [],
    toPersist := [], store := store, now := now, nextRid := 0 }

/- Statement-support definitions (specification-side predicates the claim
theorems are phrased against). -/

/-- The chain map {r0: {r1: ... value}} that a set along a fresh path builds
below the first non-map node it replaced. -/
def mkChain : DPath → JVal → KVs
  | [], _ => []
  | [k], v => [(k, v)]
  | k :: ks, v => [(k, .obj (mkChain ks v))]

/-- The candidate patterns for a changed or triggered path p0...pn, per the
registered-pattern grammar: the bare multi-level wildcard, the exact path,
the sibling single-level wildcard p0...p(n-1).*, and q.** for every
nonempty strict prefix q of the path. -/
def matchCandidate (p q : DPath) : Prop :=
  q = [wild2] ∨ q = p ∨ q = p.dropLast ++ [wild1] ∨
    ∃ i : ℕ, i + 1 < p.length ∧ q = p.take (i + 1) ++ [wild2]

/-- The patterns contributed by the getListeners reduce loop, as a predicate
(prev is the already-consumed part of the path): at the last segment the
sibling wildcard and the exact path, at every earlier segment the descendant
wildcard. -/
def glCand (prev : DPath) : List Seg → DPath → Prop
  | [], _ => False
  | [cur], q => q = prev ++ [wild1] ∨ q = prev ++ [cur]
  | cur :: rest, q => q = prev ++ [cur, wild2] ∨ glCand (prev ++ [cur]) rest q

/-- What one walk direction of the diff engine reports at a path q below a
node: the iterated side (kvs) holds a value v at q, and either v is a map
node entirely absent on the other side (o1), or v is a non-map leaf whose
serialization differs from whatever the other side holds at q (including
absence). -/
def foundDiff (o1 : Option JVal) (kvs : KVs) (q : DPath) : Prop :=
  ∃ v, getObjectAtPath q (some (.obj kvs)) = some v ∧
    (if isObjectB v = true then getObjectAtPath q o1 = none
     else optBeq (getObjectAtPath q o1) (some v) = false)

/-- One direction of the diff specification: path p is reported against the
pair (a, b) because of what b holds there — a map node at p in b that is
entirely absent in a, or a non-map leaf at p in b whose value differs
structurally from whatever a holds at p (including absence). -/
def oneSidedDiff (a b : KVs) (p : DPath) : Prop :=
  foundDiff (some (.obj a)) b p

/-- In one record list, every record carrying this record identity bears the
fire-once mark. -/
def recsLocked (recs : List LRec) (rid : Nat) : Bool :=
  recs.all (fun r => r.rid != rid || r.once)

/-- In one registry, every record carrying this record identity bears the
fire-once mark. -/
def onceLockedReg (reg : Registry) (rid : Nat) : Bool :=
  reg.all (fun e => recsLocked e.2 rid)

/-- In the whole engine state, every record carrying this record identity
bears the fire-once mark (and the identity is not a future fresh one). -/
def onceLocked (s : DDM) (rid : Nat) : Bool :=
  decide (rid < s.nextRid) && onceLockedReg s.eventL rid &&
    onceLockedReg s.propL rid && onceLockedReg s.persL rid

/-- The spec-side characterization of _d.empty at one retrieved value:
absent, null, empty map, empty list, whitespace-only string, any boolean,
and any non-integer number are empty; everything else is not. -/
def emptySpec : Option JVal → Prop
  | none => True
  | some .null => True
  | some (.obj m) => m = []
  | some (.arr xs) => xs = []
  | some (.str s) => s.data.all isWsChar = true
  | some (.bool _) => True
  | some (.num q) => q.den ≠ 1


/- Helper lemmas. -/

theorem lookupKV_updateKV_self (m : KVs) (k : String) (v : JVal) :
    lookupKV (updateKV m k v) k = some v := by
  induction m with
  | nil => simp [updateKV, lookupKV]
  | cons e rest ih =>
      obtain ⟨k', v'⟩ := e
      by_cases h : k' = k
      · simp [updateKV, lookupKV, h]
      · simp [updateKV, lookupKV, h, ih]

theorem getObjectAtPath_none (p : DPath) : getObjectAtPath p none = none := by
  induction p with
  | nil => rfl
  | cons k ks ih => simp [getObjectAtPath, getProp, ih]

theorem getObjectAtPath_cons (k : Seg) (ks : DPath) (m : KVs) :
    getObjectAtPath (k :: ks) (some (.obj m)) = getObjectAtPath ks (lookupKV m k) := rfl

theorem getObjectAtPath_nonobj (ks : DPath) (w : JVal) (hks : ks ≠ [])
    (hw : isObjectB w = false) : getObjectAtPath ks (some w) = none := by
  cases ks with
  | nil => exact absurd rfl hks
  | cons k ks' =>
      have hp : getProp (some w) k = none := by
        cases w <;> simp_all [getProp, isObjectB]
      simp [getObjectAtPath, hp, getObjectAtPath_none]

theorem setWalk_nil_eq_mkChain (r : DPath) (v : JVal) (h : r ≠ []) :
    setWalk r v [] = mkChain r v := by
  induction r with
  | nil => exact absurd rfl h
  | cons k ks ih =>
      cases ks with
      | nil => simp [setWalk, mkChain, lookupKV, updateKV]
      | cons k₂ ks₂ =>
          simp [setWalk, mkChain, lookupKV, updateKV]
          exact ih (by simp)

/- C10. -/

/-- C10: if a strict-prefix node of the written path currently holds a
non-map value, set replaces that node by a fresh empty map and builds the
remaining chain below it, so after setObjectAtPath (q ++ r) the node at q is
exactly the fresh chain holding the written value - the previous value at q
is discarded. -/
theorem claim_C10_set_replaces_nonmap_node (t : KVs) (q r : DPath) (v w : JVal)
    (hq : q ≠ []) (hr : r ≠ [])
    (hget : getObjectAtPath q (some (.obj t)) = some w)
    (hw : isObjectB w = false) :
    getObjectAtPath q (some (.obj (setObjectAtPath (q ++ r) v t))) =
      some (.obj (mkChain r v)) := by
  induction q generalizing t with
  | nil => exact absurd rfl hq
  | cons k q' ih =>
      cases q' with
      | nil =>
          have hlook : lookupKV t k = some w := by
            simpa [getObjectAtPath, getProp] using hget
          cases r with
          | nil => exact absurd rfl hr
          | cons r₀ r' =>
              have hset : setObjectAtPath (k :: r₀ :: r') v t =
                  updateKV t k (.obj (setWalk (r₀ :: r') v [])) := by
                unfold setObjectAtPath cloneObject
                cases w <;> simp_all [setWalk, isObjectB]
              rw [List.cons_append, List.nil_append, hset,
                getObjectAtPath_cons, lookupKV_updateKV_self,
                setWalk_nil_eq_mkChain _ _ (by simp)]
              rfl
      | cons q₁ q'' =>
          rw [getObjectAtPath_cons] at hget
          cases hlook : lookupKV t k with
          | none => rw [hlook, getObjectAtPath_none] at hget; exact absurd hget (by simp)
          | some u =>
              rw [hlook] at hget
              cases u with
              | obj m =>
                  have hih := ih m (by simp) hget
                  have hset : setObjectAtPath (k :: ((q₁ :: q'') ++ r)) v t =
                      updateKV t k (.obj (setObjectAtPath ((q₁ :: q'') ++ r) v m)) := by
                    simp only [setObjectAtPath, cloneObject, List.cons_append,
                      setWalk, hlook]
                  rw [List.cons_append, hset, getObjectAtPath_cons,
                    lookupKV_updateKV_self]
                  exact hih
              | null =>
                  rw [getObjectAtPath_nonobj _ _ (by simp) (by simp [isObjectB])] at hget
                  exact absurd hget (by simp)
              | bool b =>
                  rw [getObjectAtPath_nonobj _ _ (by simp) (by simp [isObjectB])] at hget
                  exact absurd hget (by simp)
              | num n =>
                  rw [getObjectAtPath_nonobj _ _ (by simp) (by simp [isObjectB])] at hget
                  exact absurd hget (by simp)
              | str s =>
                  rw [getObjectAtPath_nonobj _ _ (by simp) (by simp [isObjectB])] at hget
                  exact absurd hget (by simp)
              | arr xs =>
                  rw [getObjectAtPath_nonobj _ _ (by simp) (by simp [isObjectB])] at hget
                  exact absurd hget (by simp)

/-- Witness for C10 at a concrete input: the tree {a: 5} with set("a.b", "x")
turns the number at "a" into the map {b: "x"}. -/
theorem claim_C10_witness :
    (["a"] : DPath) ≠ [] ∧ (["b"] : DPath) ≠ [] ∧
      getObjectAtPath ["a"] (some (.obj [("a", JVal.num 5)])) = some (JVal.num 5) ∧
      isObjectB (JVal.num 5) = false ∧
      getObjectAtPath ["a"]
          (some (.obj (setObjectAtPath (["a"] ++ ["b"]) (JVal.str "x")
            [("a", JVal.num 5)]))) =
        some (.obj (mkChain ["b"] (JVal.str "x"))) :=
  ⟨by simp, by simp, rfl, rfl,
    claim_C10_set_replaces_nonmap_node [("a", JVal.num 5)] ["a"] ["b"]
      (JVal.str "x") (JVal.num 5) (by simp) (by simp) rfl rfl⟩

/- C9. -/

theorem all_dropWhile_iff (p : Char → Bool) (l : List Char) :
    (∀ x ∈ l.dropWhile p, p x = true) ↔ (∀ x ∈ l, p x = true) := by
  constructor
  · intro h x hx
    rw [← List.takeWhile_append_dropWhile p l] at hx
    rcases List.mem_append.mp hx with h₁ | h₂
    · exact List.mem_takeWhile_imp h₁
    · exact h x h₂
  · intro h x hx
    exact h x ((l.dropWhile_sublist p).mem hx)

theorem jsTrim_eq_empty_iff (s : String) :
    jsTrim s = "" ↔ s.data.all isWsChar = true := by
  rw [String.ext_iff]
  show ((s.data.dropWhile isWsChar).reverse.dropWhile isWsChar).reverse = [] ↔ _
  rw [List.reverse_eq_nil_iff, List.dropWhile_eq_nil_iff, List.all_eq_true]
  constructor
  · intro h x hx
    exact (all_dropWhile_iff isWsChar s.data).mp
      (fun y hy => h y (List.mem_reverse.mpr hy)) x hx
  · intro h x hx
    exact h x ((s.data.dropWhile_sublist isWsChar).mem (List.mem_reverse.mp hx))

/-- C9 counterexample: the non-integer number 0.5 stored at "k" makes
empty("k") return true, refuting "the emptiness predicate returns false for
every stored number": isInteger(0.5) is false, so the fallback
!isInteger(obj) reports 0.5 as empty. -/
theorem claim_C9_counterexample :
    empty [("k", JVal.num (mkRat 1 2))] ["k"] = true := by decide

/-- C9 (amended): the emptiness predicate returns true exactly for an absent
path, null, an empty map, an empty list, a string that is empty or
whitespace-only, any boolean, and any non-integer number; it returns false
for every stored integer (including zero), non-empty map or list, and
non-blank string. -/
theorem claim_C9_amended (t : KVs) (p : DPath) :
    empty t p = true ↔ emptySpec (getObjectAtPath p (some (.obj t))) := by
  unfold empty emptySpec
  cases h : getObjectAtPath p (some (.obj t)) with
  | none => simp
  | some v =>
      cases v with
      | null => simp
      | bool b => simp [isIntegerB]
      | num q => simp [isIntegerB]
      | str s =>
          simp only [beq_iff_eq]
          exact jsTrim_eq_empty_iff s
      | arr xs => simpa using List.isEmpty_iff
      | obj m => simpa using List.isEmpty_iff

/-- Witness for C9's amended characterization at a concrete input: a
whitespace-only string is empty. -/
theorem claim_C9_witness :
    empty [("k", JVal.str "  ")] ["k"] = true ∧
      emptySpec (getObjectAtPath ["k"] (some (.obj [("k", JVal.str "  ")]))) :=
  ⟨by decide, (claim_C9_amended [("k", JVal.str "  ")] ["k"]).mp (by decide)⟩

/- C4. -/

/-- C4 (code bug): persist(path, ttl) never performs the immediate write the
spec (and the source's own comment at ddm.js:727) promises.  The existence
test calls getObjectAtPath(path) with one argument; the buggy default
"typeof obj !== undefined" leaves obj undefined, the walk yields undefined,
and the guarded immediate _persist never runs: for every state, path and
ttl, the external store is untouched by persist. -/
theorem claim_C4_persist_never_writes (s : DDM) (p : DPath) (ttl : Option Int) :
    (persistOp s p ttl).store = s.store := by
  unfold persistOp
  simp only [getObjectAtPath_none, Option.isSome_none, Bool.false_eq_true,
    if_false]
  by_cases h : (ppGet s.toPersist p).isSome <;> simp [h]

/- C3. -/

/-- C3 (code bug): registering the identical handler twice for the same
pattern is not a no-op.  The duplicate test at ddm.js:1250 compares the
record object itself (l[i]) against the handler function, which is never
true, so a second registration appends a second record, and a subsequent
matching trigger invokes the handler twice - contradicting the source's own
doc comment ("When the exact same handler is already registered for the
exact same path, it will not be registered again"). -/
theorem claim_C3_duplicate_registration :
    (let beh : Beh := fun _ _ => .ret false
     let s₁ := (listenOp beh (initDDM [] 0) (.one ["e"]) false 0 none).1
     let s₂ := (listenOp beh s₁ (.one ["e"]) false 0 none).1
     ((lookupReg s₂.eventL ["e"]).getD []).length = 2 ∧
       (triggerOp beh s₂ ["e"] none).2.length = 2) :=
  ⟨rfl, rfl⟩

/- C7. -/

/-- C7 (code bug): the persistence round-trip of the spec fails.  With the
value "v" present at "k", persist("k", 60) stores nothing (the immediate
write is dead code, see C4), so a reload within 60 minutes - here 60 seconds
later - restores nothing at "k" instead of the promised prior value. -/
theorem claim_C7_roundtrip_restores_nothing :
    (let s₀ : DDM := { initDDM [] 1000 with dd := [("k", JVal.str "v")] }
     let s₁ := persistOp s₀ ["k"] (some 60)
     s₁.store = [] ∧ (restoreOp (initDDM s₁.store (1000 + 60000))).dd = []) :=
  ⟨rfl, rfl⟩

/- C1. -/

/-- C1: dependency gating.  From a fresh engine, listen(["evtA","evtB"],
handler) followed by trigger("evtA") then trigger("evtB") - or the triggers
in the other order - invokes the handler exactly once, and that single
invocation happens during the second trigger call (the first trigger finds
only one of the two dependsOn names satisfied; the second finds one equal to
the current event's name and the other in the event log).  This holds for
every handler behaviour. -/
theorem claim_C1_dependency_gating (beh : Beh) :
    (let s₁ := (listenOp beh (initDDM [] 0) (.many [["evtA"], ["evtB"]]) true 0 none).1
     ((triggerOp beh s₁ ["evtA"] none).2 = [] ∧
       (triggerOp beh (triggerOp beh s₁ ["evtA"] none).1 ["evtB"] none).2.map
           InvRec.fn = [.ext 0]) ∧
      ((triggerOp beh s₁ ["evtB"] none).2 = [] ∧
        (triggerOp beh (triggerOp beh s₁ ["evtB"] none).1 ["evtA"] none).2.map
            InvRec.fn = [.ext 0])) :=
  ⟨⟨rfl, rfl⟩, ⟨rfl, rfl⟩⟩

/- C2. -/

theorem mem_glEntry (reg : Registry) (pat q : DPath) :
    q ∈ (glEntry reg pat).map Prod.fst ↔ (lookupReg reg pat).isSome ∧ q = pat := by
  unfold glEntry
  cases h : lookupReg reg pat <;> simp [h]

theorem mem_glLoop (reg : Registry) (segs : List Seg) (prev q : DPath) :
    q ∈ (glLoop reg prev segs).map Prod.fst ↔
      (lookupReg reg q).isSome ∧ glCand prev segs q := by
  induction segs generalizing prev with
  | nil => simp [glLoop, glCand]
  | cons cur rest ih =>
      cases rest with
      | nil =>
          simp only [glLoop, glCand, List.map_append, List.mem_append, mem_glEntry]
          constructor
          · rintro (⟨hs, rfl⟩ | ⟨hs, rfl⟩)
            · exact ⟨hs, Or.inl rfl⟩
            · exact ⟨hs, Or.inr rfl⟩
          · rintro ⟨hs, rfl | rfl⟩
            · exact Or.inl ⟨hs, rfl⟩
            · exact Or.inr ⟨hs, rfl⟩
      | cons r₂ rest₂ =>
          simp only [glLoop, glCand, List.map_append, List.mem_append, mem_glEntry,
            ih]
          constructor
          · rintro (⟨hs, rfl⟩ | ⟨hs, hc⟩)
            · exact ⟨hs, Or.inl rfl⟩
            · exact ⟨hs, Or.inr hc⟩
          · rintro ⟨hs, rfl | hc⟩
            · exact Or.inl ⟨hs, rfl⟩
            · exact Or.inr ⟨hs, hc⟩

theorem glCand_iff (segs : List Seg) (prev q : DPath) (hs : segs ≠ []) :
    glCand prev segs q ↔
      q = prev ++ segs ∨ q = prev ++ segs.dropLast ++ [wild1] ∨
        ∃ i : ℕ, i + 1 < segs.length ∧ q = prev ++ segs.take (i + 1) ++ [wild2] := by
  induction segs generalizing prev with
  | nil => exact absurd rfl hs
  | cons cur rest ih =>
      cases rest with
      | nil =>
          simp only [glCand, List.dropLast_single, List.length_cons,
            List.length_nil, List.append_nil]
          constructor
          · rintro (rfl | rfl)
            · exact Or.inr (Or.inl rfl)
            · exact Or.inl rfl
          · rintro (rfl | rfl | ⟨i, hi, _⟩)
            · exact Or.inr rfl
            · exact Or.inl rfl
            · omega
      | cons r₂ rest₂ =>
          simp only [glCand, ih (prev ++ [cur]) (by simp)]
          constructor
          · rintro (rfl | rfl | rfl | ⟨i, hi, rfl⟩)
            · refine Or.inr (Or.inr ⟨0, by simp, ?_⟩)
              simp [List.take]
            · simp
            · refine Or.inr (Or.inl ?_)
              simp [List.dropLast_cons₂]
            · refine Or.inr (Or.inr ⟨i + 1, by simp at hi ⊢; omega, ?_⟩)
              simp [List.take]
          · rintro (rfl | rfl | ⟨i, hi, rfl⟩)
            · exact Or.inr (Or.inl (by simp))
            · refine Or.inr (Or.inr (Or.inl ?_))
              simp [List.dropLast_cons₂]
            · cases i with
              | zero =>
                  refine Or.inl ?_
                  simp [List.take]
              | succ j =>
                  refine Or.inr (Or.inr (Or.inr ⟨j, by simp at hi ⊢; omega, ?_⟩))
                  simp [List.take]

/-- C2 counterexample: a listener registered on the pattern "a.**" does not
fire when the path "a" itself changes or is triggered - the matched patterns
for the single-segment path "a" are only "**", "*" and "a", so the claim's
"a listener on p.** fires for p itself" is false at p = "a".  (This is
exactly why persist registers both path and path.** .) -/
theorem claim_C2_counterexample :
    (["a", "**"] : DPath) ∉
      (getListeners ["a"]
        [([("a" : Seg), "**"], [⟨0, .ext 0, none, none, false⟩])]).map Prod.fst := by
  decide

/-- C2 (amended): for a changed or triggered path p, the registered patterns
that fire are exactly the registered ones among: the bare **, the exact path
p, the sibling single-level wildcard (p minus its last segment).*, and q.**
for every nonempty STRICT prefix q of p.  In particular p.* fires exactly
for direct children of p, while p.** fires for strict descendants of p but
NOT for p itself. -/
theorem claim_C2_amended (reg : Registry) (p q : DPath) (hp : p ≠ []) :
    q ∈ (getListeners p reg).map Prod.fst ↔
      (lookupReg reg q).isSome ∧ matchCandidate p q := by
  unfold getListeners matchCandidate
  rw [List.map_reverse, List.mem_reverse, List.map_append, List.mem_append,
    mem_glEntry, mem_glLoop, glCand_iff p [] q hp]
  simp only [List.nil_append]
  constructor
  · rintro (⟨hs, rfl⟩ | ⟨hs, hc⟩)
    · exact ⟨hs, Or.inl rfl⟩
    · exact ⟨hs, Or.inr hc⟩
  · rintro ⟨hs, rfl | hc⟩
    · exact Or.inl ⟨hs, rfl⟩
    · exact Or.inr ⟨hs, hc⟩

/-- Witness for C2's amended characterization at concrete inputs: with
"user.*" and "user.**" registered, the path user.name matches both, while
the deeper path user.address.zip matches "user.**" but not "user.*". -/
theorem claim_C2_witness :
    (["user", "name"] : DPath) ≠ [] ∧
      ((["user", "*"] : DPath) ∈
        (getListeners ["user", "name"]
          [([("user" : Seg), "*"], [⟨0, .ext 0, none, none, false⟩]),
           ([("user" : Seg), "**"], [⟨1, .ext 1, none, none, false⟩])]).map Prod.fst ↔
        (lookupReg
          [([("user" : Seg), "*"], [⟨0, .ext 0, none, none, false⟩]),
           ([("user" : Seg), "**"], [⟨1, .ext 1, none, none, false⟩])]
          ["user", "*"]).isSome ∧ matchCandidate ["user", "name"] ["user", "*"]) :=
  ⟨by simp,
    claim_C2_amended
      [([("user" : Seg), "*"], [⟨0, .ext 0, none, none, false⟩]),
       ([("user" : Seg), "**"], [⟨1, .ext 1, none, none, false⟩])]
      ["user", "name"] ["user", "*"] (by simp)⟩

/- C8. -/

theorem runHandler_congr {beh beh' : Beh} (hf : handlerFired beh = handlerFired beh') :
    runHandler beh = runHandler beh' := by
  funext s fn arg
  cases fn <;> simp [runHandler, hf]

theorem invokeGuarded_congr {beh beh' : Beh}
    (hf : handlerFired beh = handlerFired beh') :
    invokeGuarded beh = invokeGuarded beh' := by
  have hrun := runHandler_congr hf
  funext s r arg
  simp [invokeGuarded, hrun]

theorem invokeRecsList_congr {beh beh' : Beh}
    (hf : handlerFired beh = handlerFired beh') :
    invokeRecsList beh = invokeRecsList beh' := by
  have hg := invokeGuarded_congr hf
  funext pat s recs
  induction recs generalizing s with
  | nil => simp [invokeRecsList]
  | cons r rs ih => simp [invokeRecsList, hg, ih]

theorem invokePatternList_congr {beh beh' : Beh}
    (hf : handlerFired beh = handlerFired beh') :
    invokePatternList beh = invokePatternList beh' := by
  have hrec := invokeRecsList_congr hf
  funext tag s visited ls
  induction ls generalizing s visited with
  | nil => simp [invokePatternList]
  | cons e ls ih =>
      obtain ⟨pat, recs⟩ := e
      simp only [invokePatternList, hrec, ih]

theorem invokeDiffList_congr {beh beh' : Beh}
    (hf : handlerFired beh = handlerFired beh') :
    invokeDiffList beh = invokeDiffList beh' := by
  have hpat := invokePatternList_congr hf
  funext tag s visited ds
  induction ds generalizing s visited with
  | nil => simp [invokeDiffList]
  | cons d ds ih => simp only [invokeDiffList, hpat, ih]

theorem invokeChangeListeners_congr {beh beh' : Beh}
    (hf : handlerFired beh = handlerFired beh') :
    invokeChangeListeners beh = invokeChangeListeners beh' := by
  have hd := invokeDiffList_congr hf
  funext s
  simp only [invokeChangeListeners, invokeChangeListenersForListenerSet, hd]

theorem triggerRecs_congr {beh beh' : Beh}
    (hf : handlerFired beh = handlerFired beh') :
    triggerRecs beh = triggerRecs beh' := by
  have hg := invokeGuarded_congr hf
  funext name ev invoked0 s recs
  induction recs generalizing s with
  | nil => simp [triggerRecs]
  | cons r rs ih => simp only [triggerRecs, hg, ih]

theorem triggerOp_congr {beh beh' : Beh}
    (hf : handlerFired beh = handlerFired beh') :
    triggerOp beh = triggerOp beh' := by
  have htr := triggerRecs_congr hf
  have hch := invokeChangeListeners_congr hf
  have hpats : triggerPatterns beh = triggerPatterns beh' := by
    funext name ev invoked0 s ls
    induction ls generalizing s with
    | nil => simp [triggerPatterns]
    | cons e ls ih =>
        obtain ⟨pat, recs⟩ := e
        simp only [triggerPatterns, htr, ih]
  funext s name payload
  simp only [triggerOp, hch, hpats]

theorem replayEvents_congr {beh beh' : Beh}
    (hf : handlerFired beh = handlerFired beh') :
    replayEvents beh = replayEvents beh' := by
  have hg := invokeGuarded_congr hf
  have hrecs : replayRecs beh = replayRecs beh' := by
    funext h seen e s recs
    induction recs generalizing s with
    | nil => simp [replayRecs]
    | cons r rs ih => simp only [replayRecs, hg, ih]
  have hpats : replayPatterns beh = replayPatterns beh' := by
    funext h seen e s ls
    induction ls generalizing s with
    | nil => simp [replayPatterns]
    | cons entry ls ih =>
        obtain ⟨pat, recs⟩ := entry
        simp only [replayPatterns, hrecs, ih]
  funext h s seen es
  induction es generalizing s seen with
  | nil => simp [replayEvents]
  | cons e es ih => simp only [replayEvents, hpats, ih]

/-- C8: a handler that throws is equivalent, for the engine, to one that
returns normally without the completion signal.  If two behaviour
environments agree except that where one throws the other returns a normal
non-true value, every public operation produces the same state and the same
invocation sequence under both: the exception is caught at the dispatch call
site, every remaining matched handler is still invoked, and the enclosing
operation completes normally. -/
theorem claim_C8_throw_equals_normal_return (beh beh' : Beh)
    (h : ∀ n a, beh n a = beh' n a ∨ (beh n a = .thrown ∧ beh' n a = .ret false))
    (s : DDM) (op : Op) :
    step beh s op = step beh' s op := by
  have hf : handlerFired beh = handlerFired beh' := by
    funext n a
    rcases h n a with heq | ⟨h₁, h₂⟩
    · simp [handlerFired, heq]
    · simp [handlerFired, h₁, h₂]
  cases op with
  | setV p v per ttl =>
      simp only [step, setOp, invokeChangeListeners_congr hf]
  | eraseV p =>
      simp only [step, eraseOp, invokeChangeListeners_congr hf]
  | pushV p v =>
      simp only [step, pushOp, invokeChangeListeners_congr hf]
  | trig n pl => simp only [step, triggerOp_congr hf]
  | listenE nm hist hh dbg =>
      simp only [step, listenOp, replayEvents_congr hf]
  | changeP p oc hh dbg => rfl
  | unlistenE n hh => rfl
  | persistP p ttl => rfl
  | unpersistP p => rfl
  | restore => rfl

/-- Witness for C8 at a concrete input: with a listener on "e" registered,
triggering "e" under the always-throwing behaviour gives the same state and
invocations as under the always-returning-false behaviour. -/
theorem claim_C8_witness :
    step (fun _ _ => HRes.thrown)
        (listenOp (fun _ _ => HRes.ret false) (initDDM [] 0) (.one ["e"]) false 0 none).1
        (.trig ["e"] none) =
      step (fun _ _ => HRes.ret false)
        (listenOp (fun _ _ => HRes.ret false) (initDDM [] 0) (.one ["e"]) false 0 none).1
        (.trig ["e"] none) :=
  claim_C8_throw_equals_normal_return (fun _ _ => HRes.thrown)
    (fun _ _ => HRes.ret false) (fun _ _ => Or.inr ⟨rfl, rfl⟩) _ _

/- C5. -/

theorem mem_ite_singleton {α : Type} {c : Prop} [Decidable c] {x s : α} :
    (s ∈ if c then [x] else []) ↔ c ∧ s = x := by
  split <;> simp_all

theorem mem_ite_nil_singleton {α : Type} {c : Prop} [Decidable c] {x s : α} :
    (s ∈ if c then [] else [x]) ↔ ¬c ∧ s = x := by
  split <;> simp_all

theorem lookupKV_eq_none_of_any_false (rest : KVs) (k : String)
    (h : rest.any (fun e => e.1 == k) = false) : lookupKV rest k = none := by
  induction rest with
  | nil => rfl
  | cons e r ih =>
      obtain ⟨k', v'⟩ := e
      simp only [List.any_cons, Bool.or_eq_false_iff] at h
      simp only [lookupKV, h.1, Bool.false_eq_true, if_false]
      exact ih h.2

theorem foundDiff_cons_obj (o1 : Option JVal) (k : String) (m2 rest : KVs)
    (q : DPath) (hk : rest.any (fun e => e.1 == k) = false) :
    foundDiff o1 ((k, .obj m2) :: rest) q ↔
      (q = [k] ∧ getProp o1 k = none) ∨
      (∃ q', q = k :: q' ∧ q' ≠ [] ∧ foundDiff (getProp o1 k) m2 q') ∨
      foundDiff o1 rest q := by
  have hrest := lookupKV_eq_none_of_any_false rest k hk
  cases q with
  | nil => simp [foundDiff, getObjectAtPath, isObjectB]
  | cons k₀ q'' =>
      by_cases hkk : k₀ = k
      · subst hkk
        have hl : lookupKV ((k₀, JVal.obj m2) :: rest) k₀ = some (.obj m2) := by
          simp [lookupKV]
        have e₂ : getObjectAtPath (k₀ :: q'') (some (JVal.obj rest)) = none := by
          rw [getObjectAtPath_cons, hrest]; exact getObjectAtPath_none _
        cases q'' with
        | nil =>
            have e₁ : getObjectAtPath [k₀] (some (JVal.obj ((k₀, JVal.obj m2) :: rest))) =
                some (JVal.obj m2) := by rw [getObjectAtPath_cons, hl]; rfl
            have e₃ : getObjectAtPath [k₀] o1 = getProp o1 k₀ := rfl
            simp only [foundDiff, e₁, e₂, e₃]
            simp [isObjectB]
        | cons q₁ q₂ =>
            have e₁ : getObjectAtPath (k₀ :: q₁ :: q₂)
                (some (JVal.obj ((k₀, JVal.obj m2) :: rest))) =
                getObjectAtPath (q₁ :: q₂) (some (JVal.obj m2)) := by
              rw [getObjectAtPath_cons, hl]
            have e₃ : ∀ o : Option JVal, getObjectAtPath (k₀ :: q₁ :: q₂) o =
                getObjectAtPath (q₁ :: q₂) (getProp o k₀) := fun _ => rfl
            simp only [foundDiff, e₁, e₂, e₃]
            simp
      · have hbeq : (k == k₀) = false := beq_eq_false_iff_ne.mpr (fun h => hkk h.symm)
        have hl : lookupKV ((k, JVal.obj m2) :: rest) k₀ = lookupKV rest k₀ := by
          simp [lookupKV, hbeq]
        have e₁ : getObjectAtPath (k₀ :: q'') (some (JVal.obj ((k, JVal.obj m2) :: rest))) =
            getObjectAtPath (k₀ :: q'') (some (JVal.obj rest)) := by
          rw [getObjectAtPath_cons, getObjectAtPath_cons, hl]
        simp [foundDiff, e₁, hkk]

theorem foundDiff_cons_leaf (o1 : Option JVal) (k : String) (v₀ : JVal)
    (rest : KVs) (q : DPath) (hv : isObjectB v₀ = false)
    (hk : rest.any (fun e => e.1 == k) = false) :
    foundDiff o1 ((k, v₀) :: rest) q ↔
      (q = [k] ∧ optBeq (getProp o1 k) (some v₀) = false) ∨
        foundDiff o1 rest q := by
  have hrest := lookupKV_eq_none_of_any_false rest k hk
  cases q with
  | nil =>
      cases v₀ <;> simp_all [foundDiff, getObjectAtPath, isObjectB]
  | cons k₀ q'' =>
      by_cases hkk : k₀ = k
      · subst hkk
        have hl : lookupKV ((k₀, v₀) :: rest) k₀ = some v₀ := by simp [lookupKV]
        have e₂ : getObjectAtPath (k₀ :: q'') (some (JVal.obj rest)) = none := by
          rw [getObjectAtPath_cons, hrest]; exact getObjectAtPath_none _
        cases q'' with
        | nil =>
            have e₁ : getObjectAtPath [k₀] (some (JVal.obj ((k₀, v₀) :: rest))) =
                some v₀ := by rw [getObjectAtPath_cons, hl]; rfl
            have e₃ : getObjectAtPath [k₀] o1 = getProp o1 k₀ := rfl
            simp only [foundDiff, e₁, e₂, e₃]
            simp [hv]
        | cons q₁ q₂ =>
            have hno : getObjectAtPath (q₁ :: q₂) (some v₀) = none :=
              getObjectAtPath_nonobj _ _ (by simp) hv
            have e₁ : getObjectAtPath (k₀ :: q₁ :: q₂)
                (some (JVal.obj ((k₀, v₀) :: rest))) = none := by
              rw [getObjectAtPath_cons, hl]; exact hno
            simp [foundDiff, e₁, e₂]
      · have hbeq : (k == k₀) = false := beq_eq_false_iff_ne.mpr (fun h => hkk h.symm)
        have hl : lookupKV ((k, v₀) :: rest) k₀ = lookupKV rest k₀ := by
          simp [lookupKV, hbeq]
        have e₁ : getObjectAtPath (k₀ :: q'') (some (JVal.obj ((k, v₀) :: rest))) =
            getObjectAtPath (k₀ :: q'') (some (JVal.obj rest)) := by
          rw [getObjectAtPath_cons, getObjectAtPath_cons, hl]
        simp [foundDiff, e₁, hkk]

theorem mem_diffKVs_aux :
    ∀ (n : ℕ) (kvs : KVs), sizeOf kvs ≤ n → wfKVs kvs = true →
      ∀ (o1 : Option JVal) (path s : DPath),
        s ∈ diffKVs o1 kvs path ↔
          ∃ q, s = path ++ q ∧ q ≠ [] ∧ foundDiff o1 kvs q := by
  intro n
  induction n with
  | zero =>
      intro kvs hsz
      cases kvs <;> simp at hsz <;> omega
  | succ n ih =>
      intro kvs hsz hwf o1 path s
      cases kvs with
      | nil =>
          simp only [diffKVs, List.not_mem_nil, false_iff]
          rintro ⟨q, rfl, hq, v, hv, -⟩
          cases q with
          | nil => exact hq rfl
          | cons k ks =>
              rw [getObjectAtPath_cons] at hv
              simp [lookupKV, getObjectAtPath_none] at hv
      | cons e rest =>
          obtain ⟨k, v₀⟩ := e
          have hwf' := hwf
          simp only [wfKVs, Bool.and_eq_true, Bool.not_eq_true'] at hwf'
          obtain ⟨⟨hk, hwv⟩, hwr⟩ := hwf'
          have hszr : sizeOf rest ≤ n := by
            simp only [List.cons.sizeOf_spec] at hsz; omega
          cases v₀ with
          | obj m2 =>
              have hszm : sizeOf m2 ≤ n := by
                simp only [List.cons.sizeOf_spec, Prod.mk.sizeOf_spec,
                  JVal.obj.sizeOf_spec] at hsz
                omega
              have hwm : wfKVs m2 = true := by simpa [wfVal] using hwv
              simp only [diffKVs, List.mem_append, mem_ite_singleton,
                Option.isNone_iff_eq_none]
              rw [ih m2 hszm hwm (getProp o1 k) (path ++ [k]) s,
                ih rest hszr hwr o1 path s]
              simp only [foundDiff_cons_obj o1 k m2 rest _ hk]
              constructor
              · rintro ((⟨hc, rfl⟩ | ⟨q', rfl, hq', hf⟩) | ⟨q, rfl, hq, hf⟩)
                · exact ⟨[k], rfl, by simp, Or.inl ⟨rfl, hc⟩⟩
                · exact ⟨k :: q', by simp, by simp,
                    Or.inr (Or.inl ⟨q', rfl, hq', hf⟩)⟩
                · exact ⟨q, rfl, hq, Or.inr (Or.inr hf)⟩
              · rintro ⟨q, rfl, hq, ⟨rfl, hc⟩ | ⟨q', rfl, hq', hf⟩ | hf⟩
                · exact Or.inl (Or.inl ⟨hc, rfl⟩)
                · exact Or.inl (Or.inr ⟨q', by simp, hq', hf⟩)
                · exact Or.inr ⟨q, rfl, hq, hf⟩
          | null =>
              simp only [diffKVs, List.mem_append, mem_ite_nil_singleton,
                Bool.not_eq_true]
              rw [ih rest hszr hwr o1 path s]
              simp only [foundDiff_cons_leaf o1 k JVal.null rest _ rfl hk]
              constructor
              · rintro (⟨hb, rfl⟩ | ⟨q, rfl, hq, hf⟩)
                · exact ⟨[k], rfl, by simp, Or.inl ⟨rfl, hb⟩⟩
                · exact ⟨q, rfl, hq, Or.inr hf⟩
              · rintro ⟨q, rfl, hq, ⟨rfl, hb⟩ | hf⟩
                · exact Or.inl ⟨hb, rfl⟩
                · exact Or.inr ⟨q, rfl, hq, hf⟩
          | bool b =>
              simp only [diffKVs, List.mem_append, mem_ite_nil_singleton,
                Bool.not_eq_true]
              rw [ih rest hszr hwr o1 path s]
              simp only [foundDiff_cons_leaf o1 k (JVal.bool b) rest _ rfl hk]
              constructor
              · rintro (⟨hb, rfl⟩ | ⟨q, rfl, hq, hf⟩)
                · exact ⟨[k], rfl, by simp, Or.inl ⟨rfl, hb⟩⟩
                · exact ⟨q, rfl, hq, Or.inr hf⟩
              · rintro ⟨q, rfl, hq, ⟨rfl, hb⟩ | hf⟩
                · exact Or.inl ⟨hb, rfl⟩
                · exact Or.inr ⟨q, rfl, hq, hf⟩
          | num nq =>
              simp only [diffKVs, List.mem_append, mem_ite_nil_singleton,
                Bool.not_eq_true]
              rw [ih rest hszr hwr o1 path s]
              simp only [foundDiff_cons_leaf o1 k (JVal.num nq) rest _ rfl hk]
              constructor
              · rintro (⟨hb, rfl⟩ | ⟨q, rfl, hq, hf⟩)
                · exact ⟨[k], rfl, by simp, Or.inl ⟨rfl, hb⟩⟩
                · exact ⟨q, rfl, hq, Or.inr hf⟩
              · rintro ⟨q, rfl, hq, ⟨rfl, hb⟩ | hf⟩
                · exact Or.inl ⟨hb, rfl⟩
                · exact Or.inr ⟨q, rfl, hq, hf⟩
          | str sv =>
              simp only [diffKVs, List.mem_append, mem_ite_nil_singleton,
                Bool.not_eq_true]
              rw [ih rest hszr hwr o1 path s]
              simp only [foundDiff_cons_leaf o1 k (JVal.str sv) rest _ rfl hk]
              constructor
              · rintro (⟨hb, rfl⟩ | ⟨q, rfl, hq, hf⟩)
                · exact ⟨[k], rfl, by simp, Or.inl ⟨rfl, hb⟩⟩
                · exact ⟨q, rfl, hq, Or.inr hf⟩
              · rintro ⟨q, rfl, hq, ⟨rfl, hb⟩ | hf⟩
                · exact Or.inl ⟨hb, rfl⟩
                · exact Or.inr ⟨q, rfl, hq, hf⟩
          | arr xs =>
              simp only [diffKVs, List.mem_append, mem_ite_nil_singleton,
                Bool.not_eq_true]
              rw [ih rest hszr hwr o1 path s]
              simp only [foundDiff_cons_leaf o1 k (JVal.arr xs) rest _ rfl hk]
              constructor
              · rintro (⟨hb, rfl⟩ | ⟨q, rfl, hq, hf⟩)
                · exact ⟨[k], rfl, by simp, Or.inl ⟨rfl, hb⟩⟩
                · exact ⟨q, rfl, hq, Or.inr hf⟩
              · rintro ⟨q, rfl, hq, ⟨rfl, hb⟩ | hf⟩
                · exact Or.inl ⟨hb, rfl⟩
                · exact Or.inr ⟨q, rfl, hq, hf⟩

theorem mem_dedupeFold (l acc : List DPath) (x : DPath) :
    (x ∈ l.foldl (fun res y => if y ∈ res then res else res ++ [y]) acc) ↔
      x ∈ acc ∨ x ∈ l := by
  induction l generalizing acc with
  | nil => simp
  | cons a l ih =>
      simp only [List.foldl_cons, ih, List.mem_cons]
      by_cases h : a ∈ acc
      · simp only [h, if_true]
        constructor
        · rintro (h₁ | h₂)
          · exact Or.inl h₁
          · exact Or.inr (Or.inr h₂)
        · rintro (h₁ | rfl | h₂)
          · exact Or.inl h₁
          · exact Or.inl h
          · exact Or.inr h₂
      · simp only [h, if_false, List.mem_append, List.mem_singleton]
        tauto

theorem nodup_dedupeFold (l : List DPath) (acc : List DPath) (hacc : acc.Nodup) :
    (l.foldl (fun res y => if y ∈ res then res else res ++ [y]) acc).Nodup := by
  induction l generalizing acc with
  | nil => exact hacc
  | cons a l ih =>
      simp only [List.foldl_cons]
      by_cases h : a ∈ acc
      · simp only [h, if_true]
        exact ih acc hacc
      · simp only [h, if_false]
        refine ih _ ?_
        rw [List.nodup_append]
        refine ⟨hacc, List.nodup_singleton a, ?_⟩
        intro x hx hxa
        rw [List.mem_singleton] at hxa
        subst hxa
        exact h hx

theorem mem_dedupeDiffs (l : List DPath) (x : DPath) :
    x ∈ dedupeDiffs l ↔ x ∈ l := by
  unfold dedupeDiffs
  rw [mem_dedupeFold]
  simp

theorem nodup_dedupeDiffs (l : List DPath) : (dedupeDiffs l).Nodup :=
  nodup_dedupeFold _ [] (by simp)

/-- C5: the diff of two well-formed tree snapshots contains, exactly once
each, precisely the nonempty paths p such that - in one of the snapshots -
p holds a map node that is entirely absent in the other, or p holds a
non-map leaf whose value differs structurally (deep equality over the Value
Model) from what the other snapshot holds at p; structurally equal leaves
contribute nothing.  This is the union of the one-directional walk applied
in both argument orders, deduplicated. -/
theorem claim_C5_diff_characterization (t₁ t₂ : KVs)
    (h₁ : wfKVs t₁ = true) (h₂ : wfKVs t₂ = true) :
    (getDifferences t₁ t₂).Nodup ∧
      ∀ p, p ∈ getDifferences t₁ t₂ ↔
        p ≠ [] ∧ (oneSidedDiff t₁ t₂ p ∨ oneSidedDiff t₂ t₁ p) := by
  constructor
  · exact nodup_dedupeDiffs _
  · intro p
    show p ∈ dedupeDiffs _ ↔ _
    rw [mem_dedupeDiffs, List.mem_append,
      mem_diffKVs_aux (sizeOf t₂) t₂ le_rfl h₂ (some (.obj t₁)) [] p,
      mem_diffKVs_aux (sizeOf t₁) t₁ le_rfl h₁ (some (.obj t₂)) [] p]
    simp only [List.nil_append, oneSidedDiff]
    constructor
    · rintro (⟨q, rfl, hq, hf⟩ | ⟨q, rfl, hq, hf⟩)
      · exact ⟨hq, Or.inl hf⟩
      · exact ⟨hq, Or.inr hf⟩
    · rintro ⟨hp, hf | hf⟩
      · exact Or.inl ⟨p, rfl, hp, hf⟩
      · exact Or.inr ⟨p, rfl, hp, hf⟩

/-- Witness for C5 at concrete snapshots: diffing {a: {b: 1}} against
{a: 3} yields a duplicate-free list, and the changed paths are exactly
"a.b" (a map-absent / leaf-absent difference) and "a" (a leaf in the second
snapshot differing from the map in the first). -/
theorem claim_C5_witness :
    wfKVs [("a", JVal.obj [("b", JVal.num 1)])] = true ∧
      wfKVs [("a", JVal.num 3)] = true ∧
      (getDifferences [("a", JVal.obj [("b", JVal.num 1)])]
        [("a", JVal.num 3)]).Nodup :=
  ⟨by decide, by decide,
    (claim_C5_diff_characterization _ _ (by decide) (by decide)).1⟩

/- C6. -/

theorem recsLocked_iff (recs : List LRec) (rid : Nat) :
    recsLocked recs rid = true ↔ ∀ r ∈ recs, r.rid = rid → r.once = true := by
  simp only [recsLocked, List.all_eq_true, Bool.or_eq_true, bne_iff_ne]
  constructor
  · intro h r hr hrid
    rcases h r hr with hne | ho
    · exact absurd hrid hne
    · exact ho
  · intro h r hr
    by_cases hrid : r.rid = rid
    · exact Or.inr (h r hr hrid)
    · exact Or.inl hrid

theorem onceLockedReg_iff (reg : Registry) (rid : Nat) :
    onceLockedReg reg rid = true ↔
      ∀ e ∈ reg, ∀ r ∈ e.2, r.rid = rid → r.once = true := by
  simp only [onceLockedReg, List.all_eq_true, recsLocked_iff]

theorem lookupReg_mem (reg : Registry) (q : DPath) (l : List LRec)
    (h : lookupReg reg q = some l) : (q, l) ∈ reg := by
  induction reg with
  | nil => simp [lookupReg] at h
  | cons e rest ih =>
      obtain ⟨p, l'⟩ := e
      by_cases hp : p = q
      · subst hp
        simp [lookupReg] at h
        subst h
        exact List.mem_cons_self _ _
      · have : lookupReg ((p, l') :: rest) q = lookupReg rest q := by
          simp [lookupReg, beq_eq_false_iff_ne.mpr hp]
        rw [this] at h
        exact List.mem_cons_of_mem _ (ih h)

theorem lookupReg_locked (reg : Registry) (rid : Nat) (q : DPath) (l : List LRec)
    (hreg : onceLockedReg reg rid = true) (h : lookupReg reg q = some l) :
    recsLocked l rid = true := by
  rw [recsLocked_iff]
  exact (onceLockedReg_iff reg rid).mp hreg (q, l) (lookupReg_mem reg q l h)

theorem setRegKey_locked (reg : Registry) (rid : Nat) (pat : DPath)
    (recs : List LRec) (hreg : onceLockedReg reg rid = true)
    (hrecs : recsLocked recs rid = true) :
    onceLockedReg (setRegKey reg pat recs) rid = true := by
  induction reg with
  | nil => simp [setRegKey, onceLockedReg, hrecs]
  | cons e rest ih =>
      obtain ⟨p, l'⟩ := e
      simp only [onceLockedReg, List.all_cons, Bool.and_eq_true] at hreg
      by_cases hp : p = pat
      · subst hp
        simp [setRegKey, onceLockedReg, hrecs, List.all_eq_true] at hreg ⊢
        exact hreg.2
      · simp only [setRegKey, beq_eq_false_iff_ne.mpr hp, Bool.false_eq_true,
          if_false]
        simp only [onceLockedReg, List.all_cons, Bool.and_eq_true]
        exact ⟨hreg.1, ih hreg.2⟩

theorem delRegKey_locked (reg : Registry) (rid : Nat) (pat : DPath)
    (hreg : onceLockedReg reg rid = true) :
    onceLockedReg (delRegKey reg pat) rid = true := by
  induction reg with
  | nil => simpa [delRegKey] using hreg
  | cons e rest ih =>
      obtain ⟨p, l'⟩ := e
      simp only [onceLockedReg, List.all_cons, Bool.and_eq_true] at hreg
      by_cases hp : p = pat
      · subst hp
        simpa [delRegKey, onceLockedReg] using hreg.2
      · simp only [delRegKey, beq_eq_false_iff_ne.mpr hp, Bool.false_eq_true,
          if_false]
        simp only [onceLockedReg, List.all_cons, Bool.and_eq_true]
        exact ⟨hreg.1, ih hreg.2⟩

theorem registerListener_locked (reg : Registry) (rid : Nat) (pat : DPath)
    (fn : HandlerFn) (dep : Option (List DPath)) (dbg : Option String)
    (newRid : Nat) (hreg : onceLockedReg reg rid = true) (hnew : newRid ≠ rid) :
    onceLockedReg (registerListener reg pat fn dep dbg newRid).1 rid = true := by
  unfold registerListener
  have hcond : (((lookupReg reg pat).getD []).any fun r =>
      recordStrictEqHandler r fn) = false := by
    simp [recordStrictEqHandler]
  simp only [hcond, Bool.false_eq_true, if_false]
  apply setRegKey_locked reg rid pat _ hreg
  rw [recsLocked_iff]
  intro r hr hrid
  rcases List.mem_append.mp hr with hin | hone
  · cases hl : lookupReg reg pat with
    | none => simp [hl] at hin
    | some l =>
        rw [hl] at hin
        exact (recsLocked_iff l rid).mp (lookupReg_locked reg rid pat l hreg hl) r hin hrid
  · rw [List.mem_singleton] at hone
    subst hone
    exact absurd hrid hnew

theorem filter_locked (recs : List LRec) (rid : Nat) (f : LRec → Bool)
    (h : recsLocked recs rid = true) : recsLocked (recs.filter f) rid = true := by
  rw [recsLocked_iff] at h ⊢
  intro r hr
  exact h r (List.mem_of_mem_filter hr)

theorem getListeners_entry_lookup (path : DPath) (reg : Registry) :
    ∀ e ∈ getListeners path reg, lookupReg reg e.1 = some e.2 := by
  have hentry : ∀ (pat : DPath) (e : DPath × List LRec), e ∈ glEntry reg pat →
      lookupReg reg e.1 = some e.2 := by
    intro pat e he
    unfold glEntry at he
    cases hl : lookupReg reg pat with
    | none => simp [hl] at he
    | some l =>
        rw [hl] at he
        rw [List.mem_singleton] at he
        subst he
        exact hl
  have hloop : ∀ (segs : List Seg) (prev : DPath) (e : DPath × List LRec),
      e ∈ glLoop reg prev segs → lookupReg reg e.1 = some e.2 := by
    intro segs
    induction segs with
    | nil => intro prev e he; simp [glLoop] at he
    | cons cur rest ih =>
        intro prev e he
        cases rest with
        | nil =>
            rcases List.mem_append.mp he with h₁ | h₂
            · exact hentry _ _ h₁
            · exact hentry _ _ h₂
        | cons r₂ rest₂ =>
            rcases List.mem_append.mp he with h₁ | h₂
            · exact hentry _ _ h₁
            · exact ih _ _ h₂
  intro e he
  unfold getListeners at he
  rw [List.mem_reverse] at he
  rcases List.mem_append.mp he with h₁ | h₂
  · exact hentry _ _ h₁
  · exact hloop _ _ _ h₂

theorem onceLocked_parts (s : DDM) (rid : Nat) :
    onceLocked s rid = true ↔
      rid < s.nextRid ∧ onceLockedReg s.eventL rid = true ∧
        onceLockedReg s.propL rid = true ∧ onceLockedReg s.persL rid = true := by
  simp [onceLocked, Bool.and_eq_true, decide_eq_true_eq, and_assoc]

theorem getReg_locked (s : DDM) (tag : RegTag) (rid : Nat)
    (h : onceLocked s rid = true) : onceLockedReg (getReg s tag) rid = true := by
  rw [onceLocked_parts] at h
  cases tag <;> simp [getReg] <;> tauto

theorem setReg_locked (s : DDM) (tag : RegTag) (reg' : Registry) (rid : Nat)
    (h : onceLocked s rid = true) (h' : onceLockedReg reg' rid = true) :
    onceLocked (setReg s tag reg') rid = true := by
  rw [onceLocked_parts] at h ⊢
  cases tag <;> simp [setReg] <;> tauto

theorem persistRaw_regs (s : DDM) (key : DPath) (v : Option JVal)
    (ttl : Option Int) :
    (persistRaw s key v ttl).eventL = s.eventL ∧
    (persistRaw s key v ttl).propL = s.propL ∧
    (persistRaw s key v ttl).persL = s.persL ∧
    (persistRaw s key v ttl).nextRid = s.nextRid := by
  unfold persistRaw
  split <;> simp [apply_ite]

theorem onceLocked_congr (s s' : DDM) (rid : Nat)
    (h1 : s'.eventL = s.eventL) (h2 : s'.propL = s.propL)
    (h3 : s'.persL = s.persL) (h4 : s'.nextRid = s.nextRid)
    (h : onceLocked s rid = true) : onceLocked s' rid = true := by
  rw [onceLocked_parts] at h ⊢
  rw [h1, h2, h3, h4]
  exact h

theorem persistRaw_locked (s : DDM) (key : DPath) (v : Option JVal)
    (ttl : Option Int) (rid : Nat) (h : onceLocked s rid = true) :
    onceLocked (persistRaw s key v ttl) rid = true := by
  obtain ⟨h1, h2, h3, h4⟩ := persistRaw_regs s key v ttl
  exact onceLocked_congr s _ rid h1 h2 h3 h4 h

theorem runHandler_locked (beh : Beh) (s : DDM) (fn : HandlerFn) (arg : HArg)
    (rid : Nat) (h : onceLocked s rid = true) :
    onceLocked (runHandler beh s fn arg).1 rid = true := by
  cases fn with
  | ext n => exact h
  | persistCl p => exact persistRaw_locked _ _ _ _ _ h

theorem invokeGuarded_locked (beh : Beh) (s : DDM) (r : LRec) (arg : HArg)
    (rid : Nat) (hr : r.rid = rid → r.once = true) (hs : onceLocked s rid = true) :
    onceLocked (invokeGuarded beh s r arg).1 rid = true ∧
    ((invokeGuarded beh s r arg).2.1.rid = rid →
      (invokeGuarded beh s r arg).2.1.once = true) ∧
    ∀ iv ∈ (invokeGuarded beh s r arg).2.2, iv.rid ≠ rid := by
  by_cases hro : r.once = true
  · simp only [invokeGuarded, hro, if_true]
    exact ⟨hs, fun _ => by simp [hro], by simp⟩
  · have hro' : r.once = false := by simpa using hro
    have hrne : r.rid ≠ rid := fun hrid => by
      rw [hr hrid] at hro'
      exact Bool.noConfusion hro'
    rcases hrun : runHandler beh s r.fn arg with ⟨s', fired⟩
    have hs' : onceLocked s' rid = true := by
      have := runHandler_locked beh s r.fn arg rid hs
      rw [hrun] at this
      exact this
    simp only [invokeGuarded, hro', Bool.false_eq_true, if_false, hrun]
    refine ⟨hs', fun hx => absurd hx hrne, ?_⟩
    intro iv hiv
    rw [List.mem_singleton] at hiv
    subst hiv
    exact hrne

theorem invokeRecsList_locked (beh : Beh) (pat : DPath) (rid : Nat) :
    ∀ (recs : List LRec) (s : DDM),
      recsLocked recs rid = true → onceLocked s rid = true →
      onceLocked (invokeRecsList beh pat s recs).1 rid = true ∧
      recsLocked (invokeRecsList beh pat s recs).2.1 rid = true ∧
      ∀ iv ∈ (invokeRecsList beh pat s recs).2.2.1, iv.rid ≠ rid := by
  intro recs
  induction recs with
  | nil =>
      intro s _ hs
      refine ⟨hs, rfl, ?_⟩
      simp [invokeRecsList]
  | cons r rs ih =>
      intro s hlock hs
      have hr := (recsLocked_iff _ _).mp hlock r (List.mem_cons_self r rs)
      have hrs : recsLocked rs rid = true := by
        rw [recsLocked_iff] at hlock ⊢
        exact fun x hx => hlock x (List.mem_cons_of_mem _ hx)
      rcases hG : invokeGuarded beh s r
          (HArg.data (getObjectAtPath (stripWildcard pat) (some (JVal.obj s.dd))))
        with ⟨s₁, r₁, inv₁⟩
      have hGl := invokeGuarded_locked beh s r
        (HArg.data (getObjectAtPath (stripWildcard pat) (some (JVal.obj s.dd))))
        rid hr hs
      rw [hG] at hGl
      obtain ⟨hs₁, hr₁, hinv₁⟩ := hGl
      rcases hE : invokeRecsList beh pat s₁ rs with ⟨s₂, rs₂, invs, fns⟩
      have hih := ih s₁ hrs hs₁
      rw [hE] at hih
      obtain ⟨hihs, hihr, hihi⟩ := hih
      simp only [invokeRecsList, hG, hE]
      refine ⟨hihs, ?_, ?_⟩
      · rw [recsLocked_iff]
        intro x hx hxid
        rcases List.mem_cons.mp hx with rfl | hx'
        · exact hr₁ hxid
        · exact (recsLocked_iff _ _).mp hihr x hx' hxid
      · intro iv hiv
        rcases List.mem_append.mp hiv with h₁ | h₂
        · exact hinv₁ iv h₁
        · exact hihi iv h₂

theorem invokePatternList_locked (beh : Beh) (tag : RegTag) (rid : Nat) :
    ∀ (ls : List (DPath × List LRec)) (s : DDM) (visited : List DPath),
      (∀ e ∈ ls, recsLocked e.2 rid = true) → onceLocked s rid = true →
      onceLocked (invokePatternList beh tag s visited ls).1 rid = true ∧
      ∀ iv ∈ (invokePatternList beh tag s visited ls).2.2.1, iv.rid ≠ rid := by
  intro ls
  induction ls with
  | nil =>
      intro s visited _ hs
      refine ⟨hs, ?_⟩
      simp [invokePatternList]
  | cons e ls ih =>
      intro s visited hlock hs
      obtain ⟨pat, recs⟩ := e
      have hrecs : recsLocked recs rid = true :=
        hlock (pat, recs) (List.mem_cons_self _ _)
      have hls : ∀ e ∈ ls, recsLocked e.2 rid = true :=
        fun x hx => hlock x (List.mem_cons_of_mem _ hx)
      by_cases hv : pat ∈ visited
      · simp only [invokePatternList, hv, if_true]
        exact ih s visited hls hs
      · rcases hR : invokeRecsList beh pat s recs with ⟨s₁, recs₁, invs₁, fns₁⟩
        have hRl := invokeRecsList_locked beh pat rid recs s hrecs hs
        rw [hR] at hRl
        obtain ⟨hs₁, hrecs₁, hinvs₁⟩ := hRl
        have hs₂ : onceLocked
            (setReg s₁ tag (setRegKey (getReg s₁ tag) pat recs₁)) rid = true :=
          setReg_locked s₁ tag _ rid hs₁
            (setRegKey_locked _ rid pat recs₁ (getReg_locked s₁ tag rid hs₁) hrecs₁)
        rcases hP : invokePatternList beh tag
            (setReg s₁ tag (setRegKey (getReg s₁ tag) pat recs₁))
            (visited ++ [pat]) ls with ⟨s₃, vis₃, invs₃, fns₃⟩
        have hih := ih (setReg s₁ tag (setRegKey (getReg s₁ tag) pat recs₁))
          (visited ++ [pat]) hls hs₂
        rw [hP] at hih
        obtain ⟨hihs, hihi⟩ := hih
        simp only [invokePatternList, hv, if_false, hR, hP]
        refine ⟨hihs, ?_⟩
        intro iv hiv
        rcases List.mem_append.mp hiv with h₁ | h₂
        · exact hinvs₁ iv h₁
        · exact hihi iv h₂

theorem invokeDiffList_locked (beh : Beh) (tag : RegTag) (rid : Nat) :
    ∀ (ds : List DPath) (s : DDM) (visited : List DPath),
      onceLocked s rid = true →
      onceLocked (invokeDiffList beh tag s visited ds).1 rid = true ∧
      ∀ iv ∈ (invokeDiffList beh tag s visited ds).2.2.1, iv.rid ≠ rid := by
  intro ds
  induction ds with
  | nil =>
      intro s visited hs
      refine ⟨hs, ?_⟩
      simp [invokeDiffList]
  | cons d ds ih =>
      intro s visited hs
      have hls : ∀ e ∈ getListeners d (getReg s tag), recsLocked e.2 rid = true := by
        intro e he
        exact lookupReg_locked _ rid e.1 e.2 (getReg_locked s tag rid hs)
          (getListeners_entry_lookup d (getReg s tag) e he)
      rcases hP : invokePatternList beh tag s visited
          (getListeners d (getReg s tag)) with ⟨s₁, vis₁, invs₁, fns₁⟩
      have hPl := invokePatternList_locked beh tag rid
        (getListeners d (getReg s tag)) s visited hls hs
      rw [hP] at hPl
      obtain ⟨hs₁, hinvs₁⟩ := hPl
      rcases hD : invokeDiffList beh tag s₁ vis₁ ds with ⟨s₂, vis₂, invs₂, fns₂⟩
      have hih := ih s₁ vis₁ hs₁
      rw [hD] at hih
      obtain ⟨hihs, hihi⟩ := hih
      simp only [invokeDiffList, hP, hD]
      refine ⟨hihs, ?_⟩
      intro iv hiv
      rcases List.mem_append.mp hiv with h₁ | h₂
      · exact hinvs₁ iv h₁
      · exact hihi iv h₂

theorem invokeChangeListeners_locked (beh : Beh) (s : DDM) (rid : Nat)
    (hs : onceLocked s rid = true) :
    onceLocked (invokeChangeListeners beh s).1 rid = true ∧
    ∀ iv ∈ (invokeChangeListeners beh s).2.1, iv.rid ≠ rid := by
  unfold invokeChangeListeners invokeChangeListenersForListenerSet
  rcases hA : invokeDiffList beh .pers s []
      ((getDifferences s.prevDD s.dd).reverse) with ⟨sA, visA, invsA, fnsA⟩
  have hAl := invokeDiffList_locked beh .pers rid
    ((getDifferences s.prevDD s.dd).reverse) s [] hs
  rw [hA] at hAl
  obtain ⟨hsA, hinvsA⟩ := hAl
  rcases hB : invokeDiffList beh .prop sA []
      ((getDifferences sA.prevDD sA.dd).reverse) with ⟨sB, visB, invsB, fnsB⟩
  have hBl := invokeDiffList_locked beh .prop rid
    ((getDifferences sA.prevDD sA.dd).reverse) sA [] hsA
  rw [hB] at hBl
  obtain ⟨hsB, hinvsB⟩ := hBl
  simp only [hA, hB]
  refine ⟨hsB, ?_⟩
  intro iv hiv
  rcases List.mem_append.mp hiv with h₁ | h₂
  · exact hinvsA iv h₁
  · exact hinvsB iv h₂

theorem triggerRecs_locked (beh : Beh) (name : DPath) (ev : Ev)
    (invoked0 : List HandlerFn) (rid : Nat) :
    ∀ (recs : List LRec) (s : DDM),
      recsLocked recs rid = true → onceLocked s rid = true →
      onceLocked (triggerRecs beh name ev invoked0 s recs).1 rid = true ∧
      recsLocked (triggerRecs beh name ev invoked0 s recs).2.1 rid = true ∧
      ∀ iv ∈ (triggerRecs beh name ev invoked0 s recs).2.2, iv.rid ≠ rid := by
  intro recs
  induction recs with
  | nil =>
      intro s _ hs
      refine ⟨hs, rfl, ?_⟩
      simp [triggerRecs]
  | cons r rs ih =>
      intro s hlock hs
      have hr := (recsLocked_iff _ _).mp hlock r (List.mem_cons_self r rs)
      have hrs : recsLocked rs rid = true := by
        rw [recsLocked_iff] at hlock ⊢
        exact fun x hx => hlock x (List.mem_cons_of_mem _ hx)
      simp only [triggerRecs]
      split
      · rcases hG : invokeGuarded beh s r (HArg.event ev) with ⟨s₁, r₁, inv₁⟩
        have hGl := invokeGuarded_locked beh s r (HArg.event ev) rid hr hs
        rw [hG] at hGl
        obtain ⟨hs₁, hr₁, hinv₁⟩ := hGl
        rcases hE : triggerRecs beh name ev invoked0 s₁ rs with ⟨s₂, rs₂, invs⟩
        have hih := ih s₁ hrs hs₁
        rw [hE] at hih
        obtain ⟨hihs, hihr, hihi⟩ := hih
        simp only [hG, hE]
        refine ⟨hihs, ?_, ?_⟩
        · rw [recsLocked_iff]
          intro x hx hxid
          rcases List.mem_cons.mp hx with rfl | hx'
          · exact hr₁ hxid
          · exact (recsLocked_iff _ _).mp hihr x hx' hxid
        · intro iv hiv
          rcases List.mem_append.mp hiv with h₁ | h₂
          · exact hinv₁ iv h₁
          · exact hihi iv h₂
      · rcases hE : triggerRecs beh name ev invoked0 s rs with ⟨s₂, rs₂, invs⟩
        have hih := ih s hrs hs
        rw [hE] at hih
        obtain ⟨hihs, hihr, hihi⟩ := hih
        simp only [hE]
        refine ⟨hihs, ?_, ?_⟩
        · rw [recsLocked_iff]
          intro x hx hxid
          rcases List.mem_cons.mp hx with rfl | hx'
          · exact hr hxid
          · exact (recsLocked_iff _ _).mp hihr x hx' hxid
        · intro iv hiv
          simp only [List.nil_append] at hiv
          exact hihi iv hiv

theorem triggerPatterns_locked (beh : Beh) (name : DPath) (ev : Ev)
    (invoked0 : List HandlerFn) (rid : Nat) :
    ∀ (ls : List (DPath × List LRec)) (s : DDM),
      (∀ e ∈ ls, recsLocked e.2 rid = true) → onceLocked s rid = true →
      onceLocked (triggerPatterns beh name ev invoked0 s ls).1 rid = true ∧
      ∀ iv ∈ (triggerPatterns beh name ev invoked0 s ls).2, iv.rid ≠ rid := by
  intro ls
  induction ls with
  | nil =>
      intro s _ hs
      refine ⟨hs, ?_⟩
      simp [triggerPatterns]
  | cons e ls ih =>
      intro s hlock hs
      obtain ⟨pat, recs⟩ := e
      have hrecs : recsLocked recs rid = true :=
        hlock (pat, recs) (List.mem_cons_self _ _)
      have hls : ∀ e ∈ ls, recsLocked e.2 rid = true :=
        fun x hx => hlock x (List.mem_cons_of_mem _ hx)
      rcases hR : triggerRecs beh name ev invoked0 s recs with ⟨s₁, recs₁, invs₁⟩
      have hRl := triggerRecs_locked beh name ev invoked0 rid recs s hrecs hs
      rw [hR] at hRl
      obtain ⟨hs₁, hrecs₁, hinvs₁⟩ := hRl
      have hs₂ : onceLocked
          (setReg s₁ .evt (setRegKey (getReg s₁ .evt) pat recs₁)) rid = true :=
        setReg_locked s₁ .evt _ rid hs₁
          (setRegKey_locked _ rid pat recs₁ (getReg_locked s₁ .evt rid hs₁) hrecs₁)
      rcases hP : triggerPatterns beh name ev invoked0
          (setReg s₁ .evt (setRegKey (getReg s₁ .evt) pat recs₁)) ls
        with ⟨s₃, invs₃⟩
      have hih := ih (setReg s₁ .evt (setRegKey (getReg s₁ .evt) pat recs₁)) hls hs₂
      rw [hP] at hih
      obtain ⟨hihs, hihi⟩ := hih
      simp only [triggerPatterns, hR, hP]
      refine ⟨hihs, ?_⟩
      intro iv hiv
      rcases List.mem_append.mp hiv with h₁ | h₂
      · exact hinvs₁ iv h₁
      · exact hihi iv h₂

theorem triggerOp_locked (beh : Beh) (s : DDM) (name : DPath)
    (payload : Option TrigPayload) (rid : Nat) (hs : onceLocked s rid = true) :
    onceLocked (triggerOp beh s name payload).1 rid = true ∧
    ∀ iv ∈ (triggerOp beh s name payload).2, iv.rid ≠ rid := by
  have htail : ∀ (s₁ : DDM) (ev : Ev) (invoked0 : List HandlerFn)
      (invsA : List InvRec),
      onceLocked s₁ rid = true → (∀ iv ∈ invsA, iv.rid ≠ rid) →
      onceLocked ({(triggerPatterns beh name ev invoked0 s₁
          (getListeners name s₁.eventL)).1 with
        events := (triggerPatterns beh name ev invoked0 s₁
          (getListeners name s₁.eventL)).1.events ++ [ev]} : DDM) rid = true ∧
      ∀ iv ∈ invsA ++ (triggerPatterns beh name ev invoked0 s₁
          (getListeners name s₁.eventL)).2, iv.rid ≠ rid := by
    intro s₁ ev invoked0 invsA hs₁ hA
    have hls : ∀ e ∈ getListeners name s₁.eventL, recsLocked e.2 rid = true := by
      intro e he
      exact lookupReg_locked _ rid e.1 e.2 (getReg_locked s₁ .evt rid hs₁)
        (getListeners_entry_lookup name s₁.eventL e he)
    obtain ⟨h1, h2⟩ := triggerPatterns_locked beh name ev invoked0 rid
      (getListeners name s₁.eventL) s₁ hls hs₁
    refine ⟨onceLocked_congr _ _ rid rfl rfl rfl rfl h1, ?_⟩
    intro iv hiv
    rcases List.mem_append.mp hiv with h₁ | h₂
    · exact hA iv h₁
    · exact h2 iv h₂
  unfold triggerOp
  rcases hpatch : payload.bind (·.dd) with - | patch
  · simp only [hpatch]
    exact htail s
      { name := name, timestamp := s.now, dd := none,
        rest := (payload.map (·.rest)).getD [] } [] [] hs (by simp)
  · simp only [hpatch]
    have hsB : onceLocked
        {s with prevDD := s.dd, dd := mergeObjects s.dd patch} rid = true :=
      onceLocked_congr _ _ rid rfl rfl rfl rfl hs
    obtain ⟨hsC, hinvsA⟩ := invokeChangeListeners_locked beh
      {s with prevDD := s.dd, dd := mergeObjects s.dd patch} rid hsB
    exact htail
      (invokeChangeListeners beh
        {s with prevDD := s.dd, dd := mergeObjects s.dd patch}).1
      { name := name, timestamp := s.now, dd := some patch,
        rest := (payload.map (·.rest)).getD [] }
      (invokeChangeListeners beh
        {s with prevDD := s.dd, dd := mergeObjects s.dd patch}).2.2
      (invokeChangeListeners beh
        {s with prevDD := s.dd, dd := mergeObjects s.dd patch}).2.1
      hsC hinvsA

theorem replayRecs_locked (beh : Beh) (h : Nat) (seen : List DPath) (e : Ev)
    (rid : Nat) :
    ∀ (recs : List LRec) (s : DDM),
      recsLocked recs rid = true → onceLocked s rid = true →
      onceLocked (replayRecs beh h seen e s recs).1 rid = true ∧
      recsLocked (replayRecs beh h seen e s recs).2.1 rid = true ∧
      ∀ iv ∈ (replayRecs beh h seen e s recs).2.2, iv.rid ≠ rid := by
  intro recs
  induction recs with
  | nil =>
      intro s _ hs
      refine ⟨hs, rfl, ?_⟩
      simp [replayRecs]
  | cons r rs ih =>
      intro s hlock hs
      have hr := (recsLocked_iff _ _).mp hlock r (List.mem_cons_self r rs)
      have hrs : recsLocked rs rid = true := by
        rw [recsLocked_iff] at hlock ⊢
        exact fun x hx => hlock x (List.mem_cons_of_mem _ hx)
      rcases hE : replayRecs beh h seen e s rs with ⟨s₁, rs₁, invs₁⟩
      have hih := ih s hrs hs
      rw [hE] at hih
      obtain ⟨hs₁, hrs₁, hinvs₁⟩ := hih
      simp only [replayRecs, hE]
      split
      · rcases hG : invokeGuarded beh s₁ r (HArg.event e) with ⟨s₂, r₂, inv₂⟩
        have hGl := invokeGuarded_locked beh s₁ r (HArg.event e) rid hr hs₁
        rw [hG] at hGl
        obtain ⟨hs₂, hr₂, hinv₂⟩ := hGl
        refine ⟨hs₂, ?_, ?_⟩
        · rw [recsLocked_iff]
          intro x hx hxid
          rcases List.mem_cons.mp hx with rfl | hx'
          · exact hr₂ hxid
          · exact (recsLocked_iff _ _).mp hrs₁ x hx' hxid
        · intro iv hiv
          rcases List.mem_append.mp hiv with h₁ | h₂
          · exact hinvs₁ iv h₁
          · exact hinv₂ iv h₂
      · refine ⟨hs₁, ?_, hinvs₁⟩
        rw [recsLocked_iff]
        intro x hx hxid
        rcases List.mem_cons.mp hx with rfl | hx'
        · exact hr hxid
        · exact (recsLocked_iff _ _).mp hrs₁ x hx' hxid

theorem replayPatterns_locked (beh : Beh) (h : Nat) (seen : List DPath) (e : Ev)
    (rid : Nat) :
    ∀ (ls : List (DPath × List LRec)) (s : DDM),
      (∀ x ∈ ls, recsLocked x.2 rid = true) → onceLocked s rid = true →
      onceLocked (replayPatterns beh h seen e s ls).1 rid = true ∧
      ∀ iv ∈ (replayPatterns beh h seen e s ls).2, iv.rid ≠ rid := by
  intro ls
  induction ls with
  | nil =>
      intro s _ hs
      refine ⟨hs, ?_⟩
      simp [replayPatterns]
  | cons x ls ih =>
      intro s hlock hs
      obtain ⟨pat, recs⟩ := x
      have hrecs : recsLocked recs rid = true :=
        hlock (pat, recs) (List.mem_cons_self _ _)
      have hls : ∀ x ∈ ls, recsLocked x.2 rid = true :=
        fun y hy => hlock y (List.mem_cons_of_mem _ hy)
      rcases hP : replayPatterns beh h seen e s ls with ⟨s₁, invs₁⟩
      have hih := ih s hls hs
      rw [hP] at hih
      obtain ⟨hs₁, hinvs₁⟩ := hih
      rcases hR : replayRecs beh h seen e s₁ recs with ⟨s₂, recs₂, invs₂⟩
      have hRl := replayRecs_locked beh h seen e rid recs s₁ hrecs hs₁
      rw [hR] at hRl
      obtain ⟨hs₂, hrecs₂, hinvs₂⟩ := hRl
      simp only [replayPatterns, hP, hR]
      refine ⟨?_, ?_⟩
      · exact setReg_locked s₂ .evt _ rid hs₂
          (setRegKey_locked _ rid pat recs₂ (getReg_locked s₂ .evt rid hs₂) hrecs₂)
      · intro iv hiv
        rcases List.mem_append.mp hiv with h₁ | h₂
        · exact hinvs₁ iv h₁
        · exact hinvs₂ iv h₂

theorem replayEvents_locked (beh : Beh) (h : Nat) (rid : Nat) :
    ∀ (es : List Ev) (s : DDM) (seen : List DPath),
      onceLocked s rid = true →
      onceLocked (replayEvents beh h s seen es).1 rid = true ∧
      ∀ iv ∈ (replayEvents beh h s seen es).2, iv.rid ≠ rid := by
  intro es
  induction es with
  | nil =>
      intro s seen hs
      refine ⟨hs, ?_⟩
      simp [replayEvents]
  | cons e es ih =>
      intro s seen hs
      have hls : ∀ x ∈ getListeners e.name s.eventL, recsLocked x.2 rid = true := by
        intro x hx
        exact lookupReg_locked _ rid x.1 x.2 (getReg_locked s .evt rid hs)
          (getListeners_entry_lookup e.name s.eventL x hx)
      rcases hP : replayPatterns beh h
          (if e.name ∈ seen then seen else seen ++ [e.name]) e s
          (getListeners e.name s.eventL) with ⟨s₁, invs₁⟩
      have hPl := replayPatterns_locked beh h
        (if e.name ∈ seen then seen else seen ++ [e.name]) e rid
        (getListeners e.name s.eventL) s hls hs
      rw [hP] at hPl
      obtain ⟨hs₁, hinvs₁⟩ := hPl
      rcases hE : replayEvents beh h s₁
          (if e.name ∈ seen then seen else seen ++ [e.name]) es with ⟨s₂, invs₂⟩
      have hih := ih s₁ (if e.name ∈ seen then seen else seen ++ [e.name]) hs₁
      rw [hE] at hih
      obtain ⟨hs₂, hinvs₂⟩ := hih
      simp only [replayEvents, hP, hE]
      refine ⟨hs₂, ?_⟩
      intro iv hiv
      rcases List.mem_append.mp hiv with h₁ | h₂
      · exact hinvs₁ iv h₁
      · exact hinvs₂ iv h₂

theorem listenRegister_locked (s : DDM) (names : EvName) (h : Nat)
    (dbg : Option String) (rid : Nat) (hs : onceLocked s rid = true) :
    onceLocked (listenRegister s names h dbg) rid = true := by
  cases names with
  | one p =>
      obtain ⟨h1, h2, h3, h4⟩ := (onceLocked_parts s rid).mp hs
      have hreg := registerListener_locked s.eventL rid p (.ext h) none dbg
        s.nextRid h2 (by omega)
      rw [onceLocked_parts]
      exact ⟨by show rid < s.nextRid + 1; omega, hreg, h3, h4⟩
  | many ps =>
      have hfold : ∀ (l : List DPath) (s' : DDM), onceLocked s' rid = true →
          onceLocked (l.foldl
            (fun s'' p =>
              let (reg', _) :=
                registerListener s''.eventL p (.ext h) (some ps) dbg s''.nextRid
              {s'' with eventL := reg', nextRid := s''.nextRid + 1}) s')
            rid = true := by
        intro l
        induction l with
        | nil => intro s' hs'; exact hs'
        | cons p l ihl =>
            intro s' hs'
            rw [List.foldl_cons]
            apply ihl
            obtain ⟨h1, h2, h3, h4⟩ := (onceLocked_parts s' rid).mp hs'
            rw [onceLocked_parts]
            refine ⟨by show rid < s'.nextRid + 1; omega, ?_, h3, h4⟩
            exact registerListener_locked s'.eventL rid p (.ext h) (some ps) dbg
              s'.nextRid h2 (by omega)
      exact hfold ps.reverse s hs

theorem listenOp_locked (beh : Beh) (s : DDM) (names : EvName) (hist : Bool)
    (h : Nat) (dbg : Option String) (rid : Nat) (hs : onceLocked s rid = true) :
    onceLocked (listenOp beh s names hist h dbg).1 rid = true ∧
    ∀ iv ∈ (listenOp beh s names hist h dbg).2, iv.rid ≠ rid := by
  unfold listenOp
  have hs₁ := listenRegister_locked s names h dbg rid hs
  by_cases hh : hist = true
  · simp only [hh, if_true]
    exact replayEvents_locked beh h rid (listenRegister s names h dbg).events
      (listenRegister s names h dbg) [] hs₁
  · have hh' : hist = false := by simpa using hh
    simp only [hh', Bool.false_eq_true, if_false]
    exact ⟨hs₁, by simp⟩

theorem changeOp_locked (s : DDM) (p : DPath) (oc : Bool) (h : Nat)
    (dbg : Option String) (rid : Nat) (hs : onceLocked s rid = true) :
    onceLocked (changeOp s p oc h dbg).1 rid = true ∧
    ∀ iv ∈ (changeOp s p oc h dbg).2, iv.rid ≠ rid := by
  obtain ⟨h1, h2, h3, h4⟩ := (onceLocked_parts s rid).mp hs
  unfold changeOp
  rcases hreg' : registerListener s.propL p (HandlerFn.ext h) none dbg s.nextRid
    with ⟨reg', registered⟩
  have hregL : onceLockedReg reg' rid = true := by
    have hx := registerListener_locked s.propL rid p (.ext h) none dbg
      s.nextRid h3 (by omega)
    rw [hreg'] at hx
    exact hx
  have hs₁ : onceLocked {s with propL := reg', nextRid := s.nextRid + 1}
      rid = true := by
    rw [onceLocked_parts]
    exact ⟨by show rid < s.nextRid + 1; omega, h2, hregL, h4⟩
  simp only [hreg']
  constructor
  · split
    · split
      · exact hs₁
      · exact hs₁
    · exact hs₁
  · split
    · split
      · intro iv hiv
        rw [List.mem_singleton] at hiv
        subst hiv
        show ¬s.nextRid = rid
        omega
      · simp
    · simp

theorem unlistenOp_locked (s : DDM) (name : DPath) (h : Nat) (rid : Nat)
    (hs : onceLocked s rid = true) :
    onceLocked (unlistenOp s name h) rid = true := by
  obtain ⟨h1, h2, h3, h4⟩ := (onceLocked_parts s rid).mp hs
  unfold unlistenOp
  rcases hl : lookupReg s.eventL name with _ | l
  · exact hs
  · rw [onceLocked_parts]
    exact ⟨h1,
      setRegKey_locked s.eventL rid name _ h2
        (filter_locked l rid _ (lookupReg_locked s.eventL rid name l h2 hl)),
      h3, h4⟩

theorem persistOp_locked (s : DDM) (p : DPath) (ttl : Option Int) (rid : Nat)
    (hs : onceLocked s rid = true) :
    onceLocked (persistOp s p ttl) rid = true := by
  obtain ⟨h1, h2, h3, h4⟩ := (onceLocked_parts s rid).mp hs
  unfold persistOp
  rcases hA : registerListener s.persL p (.persistCl p) none none s.nextRid
    with ⟨regA, bA⟩
  rcases hB : registerListener regA (p ++ [wild2]) (.persistCl p) none none
    (s.nextRid + 1) with ⟨regB, bB⟩
  have hregB : onceLockedReg regB rid = true := by
    have hxA := registerListener_locked s.persL rid p (.persistCl p) none none
      s.nextRid h4 (by omega)
    rw [hA] at hxA
    have hxB := registerListener_locked regA rid (p ++ [wild2]) (.persistCl p)
      none none (s.nextRid + 1) hxA (by omega)
    rw [hB] at hxB
    exact hxB
  have hS1 : onceLocked (if (ppGet s.toPersist p).isSome then s
      else {s with persL := regB, nextRid := s.nextRid + 2}) rid = true := by
    split
    · exact hs
    · rw [onceLocked_parts]
      exact ⟨by show rid < s.nextRid + 2; omega, h2, h3, hregB⟩
  simp only [hA, hB]
  split
  · exact persistRaw_locked _ p _ _ rid
      (onceLocked_congr _ _ rid rfl rfl rfl rfl hS1)
  · exact onceLocked_congr _ _ rid rfl rfl rfl rfl hS1

theorem unpersistOp_locked (s : DDM) (p : DPath) (rid : Nat)
    (hs : onceLocked s rid = true) :
    onceLocked (unpersistOp s p) rid = true := by
  obtain ⟨h1, h2, h3, h4⟩ := (onceLocked_parts s rid).mp hs
  unfold unpersistOp
  apply persistRaw_locked
  rw [onceLocked_parts]
  exact ⟨h1, h2, h3,
    delRegKey_locked _ rid (p ++ [wild2]) (delRegKey_locked s.persL rid p h4)⟩

theorem restoreStep_locked (s : DDM) (key : SKey) (rid : Nat) (s' : DDM)
    (hs : onceLocked s rid = true) (hstep : restoreStep s key = some s') :
    onceLocked s' rid = true := by
  cases key with
  | val p =>
      simp only [restoreStep, Option.some_inj] at hstep
      exact hstep ▸ hs
  | exp p =>
      rcases hv : storeGet s.store (SKey.val p) with _ | sv <;>
        rcases he : storeGet s.store (SKey.exp p) with _ | expv <;>
        simp only [restoreStep, hv, he, Option.some_inj] at hstep
      · subst hstep; exact onceLocked_congr s _ rid rfl rfl rfl rfl hs
      · subst hstep; exact onceLocked_congr s _ rid rfl rfl rfl rfl hs
      · subst hstep; exact onceLocked_congr s _ rid rfl rfl rfl rfl hs
      · split at hstep
        · rcases hj : parseJson sv with _ | v <;> simp only [hj] at hstep
          · exact Option.noConfusion hstep
          · rw [Option.some_inj] at hstep
            subst hstep
            split
            · exact onceLocked_congr s _ rid rfl rfl rfl rfl hs
            · exact persistOp_locked _ p none rid
                (onceLocked_congr s _ rid rfl rfl rfl rfl hs)
        · rw [Option.some_inj] at hstep
          subst hstep
          exact onceLocked_congr s _ rid rfl rfl rfl rfl hs

theorem restoreLoop_locked (rid : Nat) :
    ∀ (keys : List SKey) (s : DDM), onceLocked s rid = true →
      onceLocked (restoreLoop s keys) rid = true := by
  intro keys
  induction keys with
  | nil => intro s hs; simpa [restoreLoop] using hs
  | cons key rest ih =>
      intro s hs
      unfold restoreLoop
      split
      · exact ih s hs
      · rcases hst : restoreStep s key with _ | s₁ <;> simp only [hst]
        · exact hs
        · apply ih
          have h₁ := restoreStep_locked s key rid s₁ hs hst
          unfold restoreCleanup
          split
          · exact onceLocked_congr s₁ _ rid rfl rfl rfl rfl h₁
          · exact h₁

theorem restoreOp_locked (s : DDM) (rid : Nat) (hs : onceLocked s rid = true) :
    onceLocked (restoreOp s) rid = true := by
  unfold restoreOp
  exact restoreLoop_locked rid (s.store.map Prod.fst) s hs

theorem setOp_locked (beh : Beh) (s : DDM) (p : DPath) (v : JVal) (per : Bool)
    (ttl : Option Int) (rid : Nat) (hs : onceLocked s rid = true) :
    onceLocked (setOp beh s p v per ttl).1 rid = true ∧
    ∀ iv ∈ (setOp beh s p v per ttl).2, iv.rid ≠ rid := by
  have hs₁ : onceLocked {s with prevDD := s.dd} rid = true :=
    onceLocked_congr s _ rid rfl rfl rfl rfl hs
  have hs₂ : onceLocked (if per then persistOp {s with prevDD := s.dd} p ttl
      else {s with prevDD := s.dd}) rid = true := by
    split
    · exact persistOp_locked _ p ttl rid hs₁
    · exact hs₁
  have hs₃ : onceLocked {(if per then persistOp {s with prevDD := s.dd} p ttl
        else {s with prevDD := s.dd}) with
      dd := setObjectAtPath p v
        (if per then persistOp {s with prevDD := s.dd} p ttl
         else {s with prevDD := s.dd}).dd} rid = true :=
    onceLocked_congr _ _ rid rfl rfl rfl rfl hs₂
  have hmain := invokeChangeListeners_locked beh _ rid hs₃
  exact ⟨hmain.1, hmain.2⟩

theorem eraseOp_locked (beh : Beh) (s : DDM) (p : DPath) (rid : Nat)
    (hs : onceLocked s rid = true) :
    onceLocked (eraseOp beh s p).1 rid = true ∧
    ∀ iv ∈ (eraseOp beh s p).2, iv.rid ≠ rid := by
  unfold eraseOp
  split
  · exact ⟨hs, by simp⟩
  · have hs₁ : onceLocked {s with prevDD := s.dd, dd := deleteAtPath p s.dd}
        rid = true := onceLocked_congr s _ rid rfl rfl rfl rfl hs
    have hmain := invokeChangeListeners_locked beh _ rid hs₁
    exact ⟨hmain.1, hmain.2⟩

theorem pushOp_locked (beh : Beh) (s : DDM) (p : DPath) (v : JVal) (rid : Nat)
    (hs : onceLocked s rid = true) :
    onceLocked (pushOp beh s p v).1 rid = true ∧
    ∀ iv ∈ (pushOp beh s p v).2.1, iv.rid ≠ rid := by
  have key : ∀ (d pd : KVs), onceLocked {s with prevDD := pd, dd := d} rid = true :=
    fun d pd => onceLocked_congr s _ rid rfl rfl rfl rfl hs
  constructor
  · exact (invokeChangeListeners_locked beh _ rid (key _ _)).1
  · exact fun iv hiv => (invokeChangeListeners_locked beh _ rid (key _ _)).2 iv hiv

theorem step_locked (beh : Beh) (s : DDM) (op : Op) (rid : Nat)
    (hs : onceLocked s rid = true) :
    onceLocked (step beh s op).1 rid = true ∧
    ∀ iv ∈ (step beh s op).2, iv.rid ≠ rid := by
  cases op with
  | setV p v per ttl => exact setOp_locked beh s p v per ttl rid hs
  | eraseV p => exact eraseOp_locked beh s p rid hs
  | pushV p v =>
      have h := pushOp_locked beh s p v rid hs
      exact ⟨h.1, h.2⟩
  | trig n pl => exact triggerOp_locked beh s n pl rid hs
  | listenE nm hist h dbg => exact listenOp_locked beh s nm hist h dbg rid hs
  | changeP p oc h dbg => exact changeOp_locked s p oc h dbg rid hs
  | unlistenE n h => exact ⟨unlistenOp_locked s n h rid hs, by simp [step]⟩
  | persistP p ttl => exact ⟨persistOp_locked s p ttl rid hs, by simp [step]⟩
  | unpersistP p => exact ⟨unpersistOp_locked s p rid hs, by simp [step]⟩
  | restore => exact ⟨restoreOp_locked s rid hs, by simp [step]⟩

theorem trace_locked (beh : Beh) (rid : Nat) :
    ∀ (ops : List Op) (s : DDM), onceLocked s rid = true →
      onceLocked (trace beh s ops).1 rid = true ∧
      ∀ iv ∈ (trace beh s ops).2, iv.rid ≠ rid := by
  intro ops
  induction ops with
  | nil => intro s hs; exact ⟨hs, by simp [trace]⟩
  | cons op rest ih =>
      intro s hs
      rcases hstep : step beh s op with ⟨s₁, invs₁⟩
      have h₁ := step_locked beh s op rid hs
      rw [hstep] at h₁
      have h₂ := ih s₁ h₁.1
      simp only [trace, hstep]
      refine ⟨h₂.1, ?_⟩
      intro iv hiv
      rw [List.mem_append] at hiv
      rcases hiv with hA | hA
      · exact h₁.2 iv hA
      · exact h₂.2 iv hA

/-- C6: fire-once permanence.  The fire-once mark is set by invokeGuarded
exactly when a record's handler call completes with === true, and onceLocked
states that every record bearing a given record identity carries the mark
(in all three registries).  The theorem: from any such state, an arbitrary
sequence of public operations — set/erase/push change dispatches, live
triggers, listens with historical replay, change registrations, unlisten,
persist/unpersist and startup restore — under an arbitrary handler behaviour
preserves the mark and never again produces an invocation of that record:
the record's handler is never invoked again. -/
theorem claim_C6_fire_once_permanent (beh : Beh) (s : DDM) (rid : Nat)
    (ops : List Op) (hs : onceLocked s rid = true) :
    onceLocked (trace beh s ops).1 rid = true ∧
    ∀ iv ∈ (trace beh s ops).2, iv.rid ≠ rid :=
  trace_locked beh rid ops s hs

/-- C6 witness: a concrete engine state holding one event listener on "e"
already marked fire-once; triggering "e", listening with historical replay,
and triggering again keeps the mark and invokes record 0 never. -/
theorem claim_C6_witness :
    onceLocked
      { dd := [], prevDD := [], events := [],
        eventL := [(["e"], [⟨0, .ext 5, none, none, true⟩])],
        propL := [], persL := [], toPersist := [], store := [],
        now := 0, nextRid := 1 } 0 = true ∧
    (onceLocked (trace (fun _ _ => .ret true)
      { dd := [], prevDD := [], events := [],
        eventL := [(["e"], [⟨0, .ext 5, none, none, true⟩])],
        propL := [], persL := [], toPersist := [], store := [],
        now := 0, nextRid := 1 }
      [.trig ["e"] none, .listenE (.one ["e"]) true 6 none,
       .trig ["e"] none]).1 0 = true ∧
     ∀ iv ∈ (trace (fun _ _ => .ret true)
      { dd := [], prevDD := [], events := [],
        eventL := [(["e"], [⟨0, .ext 5, none, none, true⟩])],
        propL := [], persL := [], toPersist := [], store := [],
        now := 0, nextRid := 1 }
      [.trig ["e"] none, .listenE (.one ["e"]) true 6 none,
       .trig ["e"] none]).2, iv.rid ≠ 0) :=
  ⟨by decide,
   claim_C6_fire_once_permanent (fun _ _ => .ret true)
     { dd := [], prevDD := [], events := [],
       eventL := [(["e"], [⟨0, .ext 5, none, none, true⟩])],
       propL := [], persL := [], toPersist := [], store := [],
       now := 0, nextRid := 1 } 0
     [.trig ["e"] none, .listenE (.one ["e"]) true 6 none,
      .trig ["e"] none] (by decide)⟩
